import Mathlib

/-!
Verification development for the `stk_writer` repository.

The repository packs up to 15 WAV samples into a Sonicware `.stk` kit
container (`src/stkpack.py`) and extracts the embedded WAV payloads back out
of a kit (`src/extract_wavs.py`).  This file gives a shallow embedding of the
byte-level behaviour of those two programs: byte buffers are `List Nat`
(each element a byte value `< 256`), the Python standard-library helpers the
code calls (`wave`, `audioop`, `struct`) are modelled by executable Lean
functions that follow their CPython implementations, and fallible code paths
(Python exceptions) are modelled with `Option`.
-/

namespace StkWriter

/-! ### Little-endian byte encoding helpers (model of `struct.pack`/`unpack`) -/

/-- `struct.pack('<H', n)`: two little-endian bytes. -/
def u16le (n : Nat) : List Nat := [n % 256, n / 256 % 256]

/-- `struct.pack('<I', n)`: four little-endian bytes. -/
def u32le (n : Nat) : List Nat :=
  [n % 256, n / 256 % 256, n / 2 ^ 16 % 256, n / 2 ^ 24 % 256]

/-- Little-endian value of a whole byte list. -/
def readLE : List Nat → Nat
  | [] => 0
  | b :: r => b + 256 * readLE r

/-- `struct.unpack('<I', l[:4])` (on a buffer with at least 4 bytes). -/
def rd32 (l : List Nat) : Nat := readLE (l.take 4)

/-- `struct.unpack('<H', l[:2])`. -/
def rd16 (l : List Nat) : Nat := readLE (l.take 2)

/-- Two's-complement byte of a small signed value (`struct.pack('<b', v)` /
`'<B'`); call sites only pass values in the packable range. -/
def byteOfInt (v : Int) : Nat := (v.emod 256).toNat

/-- Interpret a little-endian byte group of width `w` as a signed integer
(two's complement), as audioop's `GETRAWSAMPLE` does. -/
def signedOfWidth (w : Nat) (bs : List Nat) : Int :=
  let u := readLE bs
  if u < 2 ^ (8 * w - 1) then (u : Int) else (u : Int) - 2 ^ (8 * w)

/-- Little-endian bytes (width `w`) of a value taken mod `2^(8w)`. -/
def natToLE : Nat → Nat → List Nat
  | 0, _ => []
  | w + 1, n => n % 256 :: natToLE w (n / 256)

/-- Encode one signed sample of byte width `w` (two's complement LE),
as audioop's `SETRAWSAMPLE` does. -/
def encSample (w : Nat) (v : Int) : List Nat :=
  natToLE w ((v.emod (2 ^ (8 * w))).toNat)

/-- Encode a list of signed samples at byte width `w`. -/
def encodeWidth (w : Nat) (l : List Int) : List Nat :=
  (l.map (encSample w)).flatten

/-- Decode an int16 little-endian byte pair. -/
def decS16 (lo hi : Nat) : Int :=
  let u := lo + 256 * hi
  if u < 32768 then (u : Int) else (u : Int) - 65536

/-- Decode a byte buffer as a list of int16 LE samples (whole pairs only). -/
def decode16 : List Nat → List Int
  | lo :: hi :: r => decS16 lo hi :: decode16 r
  | _ => []

/-- Split a list into consecutive chunks of `w` elements (used for frames and
sample groups; `w = 0` yields no chunks, and call sites guard `w > 0`). -/
def chunkList {α : Type} : Nat → List α → List (List α)
  | _, [] => []
  | 0, _ :: _ => []
  | w + 1, a :: t =>
    (a :: t).take (w + 1) :: chunkList (w + 1) ((a :: t).drop (w + 1))
  termination_by w l => l.length
  decreasing_by
    simp only [List.length_drop, List.length_cons]
    omega

/-! ### Models of the CPython `audioop` functions used by `stkpack.py`

CPython computes the weighted sums in `tomono` / `tostereo` in C `double`
arithmetic and then clamps and floors them with `fbound`.  We model the
arithmetic over `ℚ`.  For the factor values `1` and `1/2` (exactly
representable doubles applied to 16-bit samples, with sums that stay within
53 bits) the double computation is exact, so the models agree with CPython
there.  For other factors — the non-dyadic `1/nch` of the multi-channel
mixdown — the rounded double products can differ from the exact rationals by
an ulp and change a `floor`, so no theorem below asserts the per-sample
values of these functions at such factors: only facts independent of the
sum's arithmetic are used (output lengths, and that the multi→stereo path is
the mono mixdown followed by the exact factor-1 duplication). -/

/-- audioop's `fbound`: clamp into the signed range of byte width `w`, then
floor (round towards minus infinity). -/
def fbound (w : Nat) (x : ℚ) : Int :=
  let maxv : ℚ := (2 : ℚ) ^ (8 * w - 1) - 1
  let minv : ℚ := -((2 : ℚ) ^ (8 * w - 1))
  if x > maxv then (2 : Int) ^ (8 * w - 1) - 1
  else if x < minv + 1 then -((2 : Int) ^ (8 * w - 1))
  else ⌊x⌋

/-- Is `w` one of audioop's accepted sample byte widths? -/
def audioopWidthOk (w : Nat) : Prop := w = 1 ∨ w = 2 ∨ w = 3 ∨ w = 4

instance : DecidablePred audioopWidthOk := fun w => by
  unfold audioopWidthOk; infer_instance

/-- `audioop.lin2lin(frag, w, 2)`: convert each width-`w` sample to 16 bit by
placing it in 32-bit space (`sample * 2^(32-8w)`) and arithmetically shifting
down by 16.  Raises (`none`) on an invalid width or a ragged fragment. -/
def lin2lin (frag : List Nat) (w : Nat) : Option (List Nat) :=
  if ¬ audioopWidthOk w then none
  else if frag.length % w ≠ 0 then none
  else some (encodeWidth 2 ((chunkList w frag).map
    (fun bs => Int.fdiv (signedOfWidth w bs * 2 ^ (32 - 8 * w)) (2 ^ 16))))

/-- `audioop.tomono(frag, w, f1, f2)`: treat the fragment as stereo pairs of
width-`w` samples and combine each pair as `fbound (l*f1 + r*f2)`. -/
def tomono (frag : List Nat) (w : Nat) (f1 f2 : ℚ) : Option (List Nat) :=
  if ¬ audioopWidthOk w then none
  else if frag.length % (w * 2) ≠ 0 then none
  else some (encodeWidth w ((chunkList (w * 2) frag).map
    (fun pr => fbound w ((signedOfWidth w (pr.take w) : ℚ) * f1 +
                         (signedOfWidth w (pr.drop w) : ℚ) * f2))))

/-- `audioop.tostereo(frag, w, f1, f2)`: emit `fbound (s*f1), fbound (s*f2)`
for each width-`w` sample `s`. -/
def tostereo (frag : List Nat) (w : Nat) (f1 f2 : ℚ) : Option (List Nat) :=
  if ¬ audioopWidthOk w then none
  else if frag.length % w ≠ 0 then none
  else some (((chunkList w frag).map (fun bs =>
    encSample w (fbound w ((signedOfWidth w bs : ℚ) * f1)) ++
    encSample w (fbound w ((signedOfWidth w bs : ℚ) * f2)))).flatten)

/-! `audioop.ratecv` (linear-interpolation resampler).  The C loop keeps a
balance `d`; consuming an input frame adds `outrate` and each emitted frame
subtracts `inrate` while `d ≥ 0`.  Samples live in 32-bit space
(`GETSAMPLE32` shifts 16-bit samples up by 16) and the interpolated value is
`(int)((prev*d + cur*(outrate-d)) / outrate)` — for int16 inputs the double
arithmetic in CPython is exact up to the truncating cast, which matches
`Int.tdiv` here. -/

/-- One interpolated output frame of `ratecv`. -/
def interpFrame (outr : Nat) (d : Int) (prev cur : List Int) : List Int :=
  (prev.zip cur).map (fun pc => Int.tdiv (pc.1 * d + pc.2 * ((outr : Int) - d)) (outr : Int))

/-- Closed form of ratecv's inner `while d >= 0` loop: the emitted frames for
`d, d - inr, d - 2*inr, …` while nonnegative. -/
def emitRun (prev cur : List Int) (outr inr : Nat) (d : Int) : List (List Int) :=
  if 0 ≤ d then
    (List.range (d.toNat / inr + 1)).map (fun j => interpFrame outr (d - (j : Int) * inr) prev cur)
  else []

/-- Balance left after the inner emit loop. -/
def afterRun (inr : Nat) (d : Int) : Int :=
  if 0 ≤ d then d - ((d.toNat / inr + 1 : Nat) : Int) * inr else d

/-- ratecv's outer loop: consume one frame (`prev := cur, cur := f`,
`d += outr`), then emit while `d ≥ 0`. -/
def rcLoop (inr outr : Nat) : List (List Int) → List Int → Int → List (List Int)
  | [], _, _ => []
  | f :: rest, cur, d =>
    let d1 := d + (outr : Int)
    emitRun cur f outr inr d1 ++ rcLoop inr outr rest f (afterRun inr d1)

/-- `audioop.ratecv(frag, w, nch, inrate, outrate, None)` (data part only). -/
def ratecv (frag : List Nat) (w nch inrate outrate : Nat) : Option (List Nat) :=
  if ¬ audioopWidthOk w then none
  else if nch < 1 then none
  else if frag.length % (w * nch) ≠ 0 then none
  else if inrate = 0 ∨ outrate = 0 then none
  else
    let g := Nat.gcd inrate outrate
    let inr := inrate / g
    let outr := outrate / g
    let samples := (chunkList w frag).map (fun bs => signedOfWidth w bs * 2 ^ (32 - 8 * w))
    let frames := chunkList nch samples
    let outFrames := rcLoop inr outr frames (List.replicate nch 0) (-(outr : Int))
    some (encodeWidth w (outFrames.flatten.map (fun v => Int.fdiv v (2 ^ (32 - 8 * w)))))

/-! ### Model of the stdlib `wave` module reader and writer

`wave.open(..., 'rb')` parses a RIFF/WAVE container: the `RIFF` chunk bounds
all reads, sub-chunks are walked in order (skipping unknown ones with odd
sizes padded to even), a `fmt ` chunk must declare linear PCM (format tag 1)
before the `data` chunk, and `readframes` returns whole frames from the data
chunk, truncated to the bytes actually present. -/

def riffTag : List Nat := [82, 73, 70, 70]   -- "RIFF"
def waveTag : List Nat := [87, 65, 86, 69]   -- "WAVE"
def fmtTag : List Nat := [102, 109, 116, 32] -- "fmt "
def dataTagB : List Nat := [100, 97, 116, 97] -- "data"

/-- The fields `wave` extracts from a PCM `fmt ` chunk: channel count,
sample rate, and sample byte width `(bits+7)/8`.  `none` models the
exceptions raised for short chunks, a non-PCM format tag, zero width or
zero channels. -/
def parseFmt (payload : List Nat) : Option (Nat × Nat × Nat) :=
  if payload.length < 16 then none
  else
    let tag := rd16 payload
    let nch := rd16 (payload.drop 2)
    let rate := rd32 (payload.drop 4)
    let bits := rd16 (payload.drop 14)
    if tag ≠ 1 then none
    else
      let sw := (bits + 7) / 8
      if sw = 0 then none
      else if nch = 0 then none
      else some (nch, rate, sw)

/-- Walk the sub-chunks of the RIFF body until the `data` chunk, tracking the
most recent `fmt ` information.  Returns fmt fields, declared data size and
the data bytes present.  `none` models every exception `wave.open` raises. -/
def scanChunks : List Nat → Option (Nat × Nat × Nat) → Option ((Nat × Nat × Nat) × Nat × List Nat)
  | b, fmtInfo =>
    if h : b.length < 8 then none
    else
      let name := b.take 4
      let size := rd32 (b.drop 4)
      let payload := (b.drop 8).take size
      if name = dataTagB then
        match fmtInfo with
        | none => none -- "data chunk before fmt chunk": wave raises
        | some f => some (f, size, payload)
      else if name = fmtTag then
        match parseFmt payload with
        | none => none
        | some f => scanChunks ((b.drop 8).drop (size + size % 2)) (some f)
      else scanChunks ((b.drop 8).drop (size + size % 2)) fmtInfo
  termination_by b _ => b.length
  decreasing_by
    all_goals simp only [List.length_drop]; omega

/-- The information `_to_pcm16_48k` reads from `wave.open(raw, 'rb')`:
channel count, sample byte width, frame rate, declared data-chunk size, and
the bytes `readframes(getnframes())` returns. -/
structure WavData where
  nch : Nat
  sw : Nat
  rate : Nat
  dataSize : Nat
  frames : List Nat
  deriving Repr, DecidableEq

/-- Model of opening a WAV byte buffer with `wave` and reading all frames. -/
def wave_read (raw : List Nat) : Option WavData :=
  if raw.take 4 ≠ riffTag then none
  else
    let rsize := rd32 (raw.drop 4)
    let body := (raw.drop 8).take rsize
    if body.take 4 ≠ waveTag then none
    else
      match scanChunks (body.drop 4) none with
      | none => none
      | some ((nch, rate, sw), dsize, dataBytes) =>
        let framesize := nch * sw
        let nframes := dsize / framesize
        some ⟨nch, sw, rate, dsize, dataBytes.take (nframes * framesize)⟩

/-- Model of writing a PCM WAV with `wave.open(..., 'wb')`:
44-byte canonical header followed by the data.  `none` models the
`struct.pack('<L', …)` overflow when the RIFF size does not fit in 32 bits. -/
def wave_write (nch sw rate : Nat) (data : List Nat) : Option (List Nat) :=
  if 36 + data.length ≥ 2 ^ 32 then none
  else
    some (riffTag ++ u32le (36 + data.length) ++ waveTag ++
      fmtTag ++ u32le 16 ++ u16le 1 ++ u16le nch ++ u32le rate ++
      u32le (rate * nch * sw) ++ u16le (nch * sw) ++ u16le (sw * 8) ++
      dataTagB ++ u32le data.length ++ data)

/-! ### `stkpack._to_pcm16_48k` — the audio normalizer -/

def TARGET_RATE : Nat := 48000
def TARGET_WIDTH : Nat := 2

/-- `CUE_CHUNK` from `stkpack.py`: "cue " tag, size 28, one cue point. -/
def CUE_CHUNK : List Nat :=
  [99, 117, 101, 32, 28, 0, 0, 0] ++
  [1, 0, 0, 0, 1, 0, 0, 0, 0, 0, 0, 0] ++
  [100, 97, 116, 97] ++ List.replicate 12 0

/-- `LIST_CHUNK` from `stkpack.py`: "LIST" tag, size 30, adtl/labl
"Tempo: 000.0" annotation. -/
def LIST_CHUNK : List Nat :=
  [76, 73, 83, 84, 30, 0, 0, 0] ++
  [97, 100, 116, 108, 108, 97, 98, 108] ++ [18, 0, 0, 0] ++ [1, 0, 0, 0] ++
  [84, 101, 109, 112, 111, 58, 32, 48, 48, 48, 46, 48] ++ [0, 0]

/-- Bit-depth stage of `_to_pcm16_48k`:
`if sampwidth != TARGET_WIDTH: frames = audioop.lin2lin(frames, sampwidth, 2)`.
Returns the frames together with the (possibly updated) sample width. -/
def convertWidth (a : WavData) : Option (List Nat × Nat) :=
  if a.sw ≠ TARGET_WIDTH then (lin2lin a.frames a.sw).map (fun f => (f, TARGET_WIDTH))
  else some (a.frames, a.sw)

/-- Channel stage of `_to_pcm16_48k` (`nch` is the source channel count,
`tc` the target): `tomono` with factors `1/nch` for a mono target,
`tostereo` for mono-to-stereo, and `tomono` followed by `tostereo` for any
other mismatch. -/
def convertChannels (nch tc : Nat) (frames : List Nat) (sw : Nat) : Option (List Nat) :=
  if nch ≠ tc then
    if tc = 1 then tomono frames sw (1 / (nch : ℚ)) (1 / (nch : ℚ))
    else if tc = 2 ∧ nch = 1 then tostereo frames sw 1 1
    else (tomono frames sw (1 / (nch : ℚ)) (1 / (nch : ℚ))).bind
      (fun mono => tostereo mono sw 1 1)
  else some frames

/-- Rate stage of `_to_pcm16_48k`:
`if fr != TARGET_RATE: frames, _ = audioop.ratecv(frames, sw, nch, fr, 48000, None)`. -/
def convertRate (rate tc : Nat) (frames : List Nat) (sw : Nat) : Option (List Nat) :=
  if rate ≠ TARGET_RATE then ratecv frames sw tc rate TARGET_RATE else some frames

/-- Re-encoding tail of `_to_pcm16_48k`: write a standard WAV with `wave`,
slice out its fmt chunk, data header and audio data, and splice `CUE_CHUNK`
and `LIST_CHUNK` in between with a freshly computed RIFF size.  The final
`none` models the `struct.pack('<I', new_riff_size)` overflow. -/
def repack (tc : Nat) (frames : List Nat) : Option (List Nat) :=
  (wave_write tc TARGET_WIDTH TARGET_RATE frames).bind (fun orig =>
    let fmt_chunk := (orig.drop 12).take 24
    let data_tag_size := (orig.drop 36).take 8
    let audio_data := orig.drop 44
    let new_riff_size := 4 + fmt_chunk.length + CUE_CHUNK.length + LIST_CHUNK.length +
      data_tag_size.length + audio_data.length
    if new_riff_size ≥ 2 ^ 32 then none
    else
      some (riffTag ++ u32le new_riff_size ++ waveTag ++ fmt_chunk ++ CUE_CHUNK ++
        LIST_CHUNK ++ data_tag_size ++ audio_data))

/-- `_to_pcm16_48k(raw, target_channels)`: parse with `wave`, convert bit
depth to 16, convert channels, resample to 48 kHz, then re-encode.  (The
source's comptype check can never fire: the `wave` module only ever reports
`'NONE'`.)  `none` models any exception escaping the function. -/
def to_pcm16_48k (raw : List Nat) (target_channels : Nat) : Option (List Nat) :=
  (wave_read raw).bind fun a =>
  (convertWidth a).bind fun st1 =>
  (convertChannels a.nch target_channels st1.1 st1.2).bind fun frames2 =>
  (convertRate a.rate target_channels frames2 st1.2).bind fun frames3 =>
  repack target_channels frames3

/-! ### `stkpack.py` container construction -/

def KTDT_SIZE : Nat := 0x1084
def MAGIC : List Nat := [86, 68, 75, 48, 80, 82, 32, 0] -- b"VDK0PR \x00"
def KTDT_TAG : List Nat := [75, 84, 68, 84]              -- b"KTDT"
def ISDT_TAG : List Nat := [73, 83, 68, 84]              -- b"ISDT"
def KTDT_FOOTER : List Nat := List.replicate 8 0 ++ [0x64, 0, 0, 0]

/-- Per-sample parameters (`_customize_samples` record, with its defaults). -/
structure SampleParams where
  volume : Int := 100
  pitch : Int := 0
  pan : Int := 0
  fx_send : Int := 0
  deriving Repr, DecidableEq

/-- `_get_param_suffix(volume, pitch, pan, fx_send)` — the 24-byte parameter
record.  `pitch_units = int(pitch * 256 / 100)`: CPython evaluates
`pitch*256/100` in double precision and `int` truncates towards zero; for
the CLI-validated range `-1200 ≤ pitch ≤ 1200` the double quotient never
rounds across an integer boundary, so the value is the truncated integer
quotient `Int.tdiv (pitch*256) 100`. -/
def get_param_suffix (volume pitch pan fx_send : Int) : List Nat :=
  let pitch_units := Int.tdiv (pitch * 256) 100
  [byteOfInt volume, byteOfInt pan, 0, 0] ++ List.replicate 12 0 ++
    ([byteOfInt fx_send] ++ u16le ((pitch_units.emod 65536).toNat) ++ [0]) ++
    List.replicate 4 0

/-- UTF-8 bytes of a string (Python `str.encode('utf-8')`). -/
def strBytes (s : String) : List Nat := s.toUTF8.toList.map (fun b => b.toNat)

/-- `_make_paths(title, names)`:
`f"SmplTrek/Pool/Audio/Drum/{title}/{name}.wav".encode('utf-8') + b"\x00"`. -/
def make_paths (title : String) (names : List String) : List (List Nat) :=
  names.map (fun name =>
    strBytes ("SmplTrek/Pool/Audio/Drum/" ++ title ++ "/" ++ name ++ ".wav") ++ [0])

/-- Python `buf[off : off + len(xs)] = xs` on a bytearray (exact-length
slice assignment inside the buffer). -/
def setRange (buf : List Nat) (off : Nat) (xs : List Nat) : List Nat :=
  buf.take off ++ xs ++ buf.drop (off + xs.length)

/-- One iteration of `_build_ktdt`'s `for i in range(15)` loop: write entry
`i`'s virtual path (truncated to 255 bytes + terminator when longer than 256
bytes) at offset `i*280` and its 24-byte parameter suffix at `i*280 + 256`. -/
def ktdtEntryStep (paths : List (List Nat)) (params : List SampleParams)
    (buf : List Nat) (i : Nat) : List Nat :=
  let off := i * 280
  let path0 := paths.getD i []
  let path := if path0.length > 256 then path0.take 255 ++ [0] else path0
  let buf2 := setRange buf off path
  let p := params.getD i {}
  setRange buf2 (off + 256) (get_param_suffix p.volume p.pitch p.pan p.fx_send)

/-- `_build_ktdt(paths, first_wav_len, params)`: a 4228-byte buffer with 15
280-byte entries, the 12-byte footer at 4200 and the first sample's ISDT
block header at 4212.
The source indexes `paths[i]` for `i < 15` (an `IndexError` if fewer are
supplied); every call site passes exactly 15 paths, which theorems assume
via `paths.length = 15`. -/
def build_ktdt (paths : List (List Nat)) (first_wav_len : Nat)
    (params : List SampleParams) : List Nat :=
  let buf := (List.range 15).foldl (ktdtEntryStep paths params)
    (List.replicate KTDT_SIZE 0)
  let buf2 := setRange buf 4200 KTDT_FOOTER
  let isdt := ISDT_TAG ++ u32le (first_wav_len + 18) ++ u32le 0 ++ [1, 0, 0, 0]
  setRange buf2 4212 isdt

/-- The 18 bytes written before payload `i > 0` in `_write_stk`:
`b"\x00\x00ISDT" + pack('<I', len(w) + 18) + pack('<I', i) + b"\x01\x00\x00\x00"`. -/
def isdtBlock (i wlen : Nat) : List Nat :=
  [0, 0] ++ ISDT_TAG ++ u32le (wlen + 18) ++ u32le i ++ [1, 0, 0, 0]

/-- The audio stream `_write_stk` writes: payload 0 bare, every later payload
preceded by its `isdtBlock`. -/
def payloadSeq : Nat → List (List Nat) → List Nat
  | _, [] => []
  | i, w :: rest =>
    (if i = 0 then w else isdtBlock i w.length ++ w) ++ payloadSeq (i + 1) rest

/-- `_write_stk(out, ktdt_body, wavs)` — the bytes written to the output
file: 32-byte header, KTDT body, the payload stream, and a final `b"\x00\x00"`
after the last payload (when any payload exists). -/
def write_stk (ktdt_body : List Nat) (wavs : List (List Nat)) : List Nat :=
  MAGIC ++ List.replicate 4 0 ++ u32le 0x10 ++ KTDT_TAG ++ u32le KTDT_SIZE ++
    List.replicate 4 0 ++ u32le 1 ++
    ktdt_body ++
    payloadSeq 0 wavs ++
    (if wavs.isEmpty then [] else [0, 0])

/-- Index of the first minimal-length element
(`min(range(len(l)), key=lambda i: len(l[i]))` — Python `min` keeps the
earliest of equal keys). -/
def argminLenAux : List (List Nat) → Nat → Nat → Nat → Nat
  | [], best, _, _ => best
  | x :: r, best, bestLen, i =>
    if x.length < bestLen then argminLenAux r i x.length (i + 1)
    else argminLenAux r best bestLen (i + 1)

def argminLen : List (List Nat) → Option Nat
  | [] => none
  | x :: r => some (argminLenAux r 0 x.length 1)

/-- The `while len(converted) < 15` padding loop of `_pick_samples`: append
the (pre-computed) smallest converted WAV, naming each copy
`f"{smallest_name}_pad{len(converted)}"` with the length taken after the
append. -/
def padLoop (smallest : List Nat) (smallest_name : String) :
    List (List Nat) → List String → List (List Nat) × List String
  | conv, nms =>
    if conv.length < 15 then
      padLoop smallest smallest_name (conv ++ [smallest])
        (nms ++ [smallest_name ++ "_pad" ++ toString (conv.length + 1)])
    else (conv, nms)
  termination_by conv _ => 15 - conv.length
  decreasing_by
    simp only [List.length_append, List.length_cons, List.length_nil]
    omega

/-- The pure tail of `_pick_samples` (after file I/O and conversion): pad to
15 with duplicates of the smallest converted WAV and return the first 15 of
each list.  `none` models the `ValueError` on an empty input. -/
def pick_samples_pad (converted : List (List Nat)) (names : List String) :
    Option (List (List Nat) × List String) :=
  if converted.length < 15 then
    match argminLen converted with
    | none => none
    | some min_idx =>
      let r := padLoop (converted.getD min_idx []) (names.getD min_idx "") converted names
      some (r.1.take 15, r.2.take 15)
  else some (converted.take 15, names.take 15)

/-- `pack(assets, names, title)` — the pack pipeline of `main`: take the
first 15 inputs, normalize each with `_to_pcm16_48k`, pad to 15, build the
virtual paths and the KTDT table (with `first_wav_len = len(wavs[0])`), and
serialize with `_write_stk`. -/
def pack (assets : List (List Nat)) (names : List String) (title : String)
    (target_channels : Nat) (params : List SampleParams) : Option (List Nat) := do
  let selected := assets.take 15
  let selNames := names.take 15
  let converted ← selected.mapM (fun a => to_pcm16_48k a target_channels)
  let r ← pick_samples_pad converted selNames
  let wavs := r.1
  let nms := r.2
  let paths := make_paths title nms
  let first_wav_len := (wavs.headD []).length
  pure (write_stk (build_ktdt paths first_wav_len params) wavs)

/-! ### `extract_wavs.py` — the container scanner -/

/-- The scan loop of `extract_wavs` over `audio_data`: at each position, a
`b'RIFF'` match reads the following 32-bit size and writes
`audio_data[pos : pos + size + 8]` out as one sample file (Python slices
truncate at the end of the buffer), then jumps past that span, stopping
after 15 matches; other positions advance one byte, stopping when fewer
than 8 bytes remain past the new position.  The result pairs the files
written (in order) with a flag that is `true` exactly when the run raises
the uncaught `struct.error` (a match leaving fewer than 4 bytes for the
size field); files written before that point remain emitted, as on disk. -/
def scanGo (audio : List Nat) : Nat → Nat → List (List Nat) × Bool
  | pos, count =>
    if h1 : pos < audio.length then
      if (audio.drop pos).take 4 = riffTag then
        if h2 : pos + 8 ≤ audio.length then
          let size := rd32 (audio.drop (pos + 4))
          let total := size + 8
          let content := (audio.drop pos).take total
          if count + 1 ≥ 15 then ([content], false)
          else
            let r := scanGo audio (pos + total) (count + 1)
            (content :: r.1, r.2)
        else ([], true)
      else
        if pos + 1 + 8 > audio.length then ([], false)
        else scanGo audio (pos + 1) count
    else ([], false)
  termination_by pos _ => audio.length - pos
  decreasing_by
    all_goals omega

/-- `extract_wavs(stk_path, out_dir)` — the extracted WAV files (and whether
the run aborted with an exception): skip the fixed `0x10A4`-byte leading
region and scan. -/
def extract_wavs (data : List Nat) : List (List Nat) × Bool :=
  scanGo (data.drop 0x10A4) 0 0

/-! ### Derived shapes used in the theorem statements -/

/-- The 24-byte `fmt ` chunk (tag + size + fields) the normalizer's
`wave.open(..., 'wb')` writes for `target_channels` at 48 kHz / 16 bit. -/
def fmtChunk24 (tc : Nat) : List Nat :=
  fmtTag ++ u32le 16 ++ u16le 1 ++ u16le tc ++ u32le TARGET_RATE ++
    u32le (TARGET_RATE * tc * TARGET_WIDTH) ++ u16le (tc * TARGET_WIDTH) ++
    u16le (TARGET_WIDTH * 8)

/-- The shape of every successful `_to_pcm16_48k` output: 12-byte RIFF
header, fmt chunk, cue chunk, LIST chunk, data tag and size, audio data.
The RIFF size field is `110 + audio.length`, the byte count of everything
after that field. -/
def buildFinal (tc : Nat) (audio : List Nat) : List Nat :=
  riffTag ++ u32le (110 + audio.length) ++ waveTag ++ fmtChunk24 tc ++
    CUE_CHUNK ++ LIST_CHUNK ++ dataTagB ++ u32le audio.length ++ audio

/-- Offset of payload `i` inside the audio stream `payloadSeq 0 wavs`
(payload 0 at 0, every later payload 18 bytes past the previous payload's
end). -/
def payloadOff (wavs : List (List Nat)) (i : Nat) : Nat :=
  ((wavs.take i).map List.length).sum + 18 * i

/-- Offset of the `k`-th block inside a block-prefixed stream
`payloadSeq j ws` with `j ≥ 1` (each earlier entry contributes its 18-byte
block plus its payload). -/
def streamOff (ws : List (List Nat)) (k : Nat) : Nat :=
  ((ws.take k).map (fun w => 18 + w.length)).sum

/-- A payload as the extraction scanner sees it: starts with the `RIFF`
signature, its declared size field is its byte length minus 8, and it is
small enough that the byte `18 + length` never spells part of a spurious
signature.  Every `_to_pcm16_48k` output of length `< 2^24 - 18` qualifies. -/
def GoodPayload (w : List Nat) : Prop :=
  w.take 4 = riffTag ∧ 8 ≤ w.length ∧ rd32 (w.drop 4) + 8 = w.length ∧
    w.length + 18 < 2 ^ 24

instance : DecidablePred GoodPayload := fun w => by
  unfold GoodPayload; infer_instance

/-- What the spec's sentence for C6 stores: `round(cents * 256 / 100)`.
(Python's banker's rounding and Mathlib's `round` agree here: `256*cents/100`
is never an exact half-integer.) -/
def pitchUnitsClaim (cents : Int) : Int := round ((cents * 256 : ℚ) / 100)

/-- What the spec's sentence for C5 says mono conversion computes: one
output sample per input frame, the equal-weight average of that frame's
`nch` channels (rounding left to the reals). -/
def claimEqualWeightMono (nch : Nat) (samples : List Int) : List ℚ :=
  (chunkList nch samples).map (fun fr => (fr.map (fun v => (v : ℚ))).sum / nch)

/-- Duplicate each sample into a stereo pair (spec-side description of
mono-to-stereo conversion). -/
def dupEach (l : List Int) : List Int := (l.map (fun v => [v, v])).flatten

/-- Floor-average of consecutive sample pairs with equal weights (what the
stereo-to-mono stage computes on decoded samples). -/
def avgPairsFloor : List Int → List Int
  | a :: b :: r => (a + b) / 2 :: avgPairsFloor r
  | _ => []

/-- audioop's stereo pair combination with weight `f` on both samples — the
operation `tomono` actually applies to a stream, whatever its true channel
count. -/
def pairCombineQ (f : ℚ) : List Int → List Int
  | a :: b :: r => fbound 2 ((a : ℚ) * f + (b : ℚ) * f) :: pairCombineQ f r
  | _ => []

/-! Small concrete vectors used by the witness theorems. -/

def sampleData : List Nat := [1, 0, 2, 0]

def sampleWav : List Nat := (wave_write 1 2 48000 sampleData).getD []

def sampleNorm : List Nat := (to_pcm16_48k sampleWav 1).getD []

def sampleWav2 : List Nat := (wave_write 1 2 48000 [5, 0, 6, 0, 7, 0]).getD []

def c2Wavs : List (List Nat) :=
  [[1, 2], [3, 4], [5], [6], [7], [8], [9], [10], [11], [12], [13], [14], [15],
   [16], [17]]

/-- Two frames of three 16-bit channels: samples `7,0,0` and `0,0,0`. -/
def c5Frames : List Nat := [7, 0, 0, 0, 0, 0, 0, 0, 0, 0, 0, 0]

/-- Audio byte count that makes a normalized container's ISDT block size
field (`container length + 18 = 0x46464952`) spell the bytes `RIFF`. -/
def hugeN : Nat := 0x46464952 - 136

def hugeAudio : List Nat := List.replicate hugeN 0

/-- A valid mono PCM container whose size poisons its own stream block
header with a spurious `RIFF` signature. -/
def hugeAsset : List Nat := buildFinal 1 hugeAudio

/-- The 9-byte junk file the scanner emits at the spurious match: the four
`RIFF` bytes of the size field, the block's index field `1`, and the first
trailer byte (the fake size field reads 1, so the span is `1 + 8` bytes). -/
def junkBuf : List Nat := [82, 73, 70, 70, 1, 0, 0, 0, 1]

/-! ## Infrastructure lemmas -/

theorem u16le_length (n : Nat) : (u16le n).length = 2 := rfl

theorem u32le_length (n : Nat) : (u32le n).length = 4 := rfl

theorem readLE_u32le (n : Nat) (h : n < 2 ^ 32) : readLE (u32le n) = n := by
  simp only [u32le, readLE]
  omega

theorem rd32_u32le_append (n : Nat) (rest : List Nat) (h : n < 2 ^ 32) :
    rd32 (u32le n ++ rest) = n := by
  rw [rd32, List.take_left' (u32le_length n), readLE_u32le n h]

theorem readLE_u16le (n : Nat) (h : n < 2 ^ 16) : readLE (u16le n) = n := by
  simp only [u16le, readLE]
  omega

theorem rd16_u16le_append (n : Nat) (rest : List Nat) (h : n < 2 ^ 16) :
    rd16 (u16le n ++ rest) = n := by
  rw [rd16, List.take_left' (u16le_length n), readLE_u16le n h]

theorem natToLE_length (w n : Nat) : (natToLE w n).length = w := by
  induction w generalizing n with
  | zero => rfl
  | succ w ih => simp [natToLE, ih]

theorem encSample_length (w : Nat) (v : Int) : (encSample w v).length = w := by
  simp [encSample, natToLE_length]

theorem encodeWidth_length (w : Nat) (l : List Int) :
    (encodeWidth w l).length = w * l.length := by
  induction l with
  | nil => simp [encodeWidth]
  | cons a t ih =>
    simp only [encodeWidth, List.map_cons, List.flatten_cons, List.length_append,
      encSample_length, List.length_cons] at *
    rw [ih]
    ring

theorem dvd_length_cons_le {α : Type} (w : Nat) (a : α) (t : List α)
    (hdvd : w ∣ (a :: t).length) (hw : 0 < w) : w ≤ (a :: t).length := by
  rcases hdvd with ⟨k, hk⟩
  rcases Nat.eq_zero_or_pos k with h0 | h0
  · simp [h0] at hk
  · calc w = w * 1 := by ring
      _ ≤ w * k := Nat.mul_le_mul_left _ h0
      _ = (a :: t).length := hk.symm

theorem chunkList_length_dvd {α : Type} :
    ∀ (w : Nat) (l : List α), 0 < w → w ∣ l.length →
      (chunkList w l).length = l.length / w
  | _, [], _, _ => by simp [chunkList]
  | w, a :: t, hw, hdvd => by
    obtain ⟨u, rfl⟩ : ∃ u, w = u + 1 := ⟨w - 1, by omega⟩
    rw [chunkList]
    have hle : u + 1 ≤ (a :: t).length := dvd_length_cons_le _ _ _ hdvd hw
    have hdvd2 : (u + 1) ∣ ((a :: t).drop (u + 1)).length := by
      rw [List.length_drop]
      exact Nat.dvd_sub' hdvd (Nat.dvd_refl _)
    have hrec := chunkList_length_dvd (u + 1) ((a :: t).drop (u + 1)) hw hdvd2
    simp only [List.length_cons, hrec, List.length_drop]
    rcases hdvd with ⟨k, hk⟩
    simp only [List.length_cons] at hk ⊢
    rw [hk]
    rcases Nat.eq_zero_or_pos k with h0 | h0
    · simp [h0] at hk
    · have h1 : (u + 1) * k - (u + 1) = (u + 1) * (k - 1) := by
        cases k with
        | zero => omega
        | succ k2 => simp only [Nat.mul_succ, Nat.succ_sub_one]; omega
      rw [h1, Nat.mul_div_cancel_left _ (by omega), Nat.mul_div_cancel_left _ (by omega)]
      omega
  termination_by w l => l.length
  decreasing_by
    simp only [List.length_drop, List.length_cons]
    omega

theorem chunkList_mem_length {α : Type} :
    ∀ (w : Nat) (l : List α), 0 < w → w ∣ l.length →
      ∀ c ∈ chunkList w l, c.length = w
  | _, [], _, _ => by simp [chunkList]
  | w, a :: t, hw, hdvd => by
    obtain ⟨u, rfl⟩ : ∃ u, w = u + 1 := ⟨w - 1, by omega⟩
    intro c hc
    rw [chunkList] at hc
    have hle : u + 1 ≤ (a :: t).length := dvd_length_cons_le _ _ _ hdvd hw
    have hdvd2 : (u + 1) ∣ ((a :: t).drop (u + 1)).length := by
      rw [List.length_drop]
      exact Nat.dvd_sub' hdvd (Nat.dvd_refl _)
    rcases List.mem_cons.mp hc with hc2 | hc2
    · rw [hc2, List.length_take]
      omega
    · exact chunkList_mem_length (u + 1) ((a :: t).drop (u + 1)) hw hdvd2 c hc2
  termination_by w l => l.length
  decreasing_by
    simp only [List.length_drop, List.length_cons]
    omega

theorem flatten_const_length {α β : Type} (f : α → List β) (c : Nat) :
    ∀ L : List α, (∀ x ∈ L, (f x).length = c) →
      ((L.map f).flatten).length = c * L.length := by
  intro L
  induction L with
  | nil => simp
  | cons a t ih =>
    intro h
    simp only [List.map_cons, List.flatten_cons, List.length_append, List.length_cons]
    rw [h a (by simp), ih (fun x hx => h x (by simp [hx]))]
    ring

theorem flatten_const_length' {β : Type} (c : Nat) :
    ∀ L : List (List β), (∀ x ∈ L, x.length = c) → L.flatten.length = c * L.length := by
  intro L h
  have := flatten_const_length (fun x => x) c L h
  simpa using this

/-! Length facts for each audioop stage (on success). -/

theorem lin2lin_length {frag : List Nat} {w : Nat} {f : List Nat}
    (h : lin2lin frag w = some f) :
    f.length = 2 * (frag.length / w) ∧ frag.length % w = 0 ∧ 0 < w := by
  unfold lin2lin at h
  split at h
  · exact absurd h (by simp)
  · split at h
    · exact absurd h (by simp)
    · rename_i hwok hmod
      have hw : 0 < w := by
        rcases not_not.mp hwok with h1 | h1 | h1 | h1 <;> omega
      have hdvd : w ∣ frag.length := Nat.dvd_of_mod_eq_zero (not_not.mp hmod)
      simp only [Option.some.injEq] at h
      subst h
      refine ⟨?_, not_not.mp hmod, hw⟩
      rw [encodeWidth_length, List.length_map, chunkList_length_dvd w frag hw hdvd]

theorem tomono_length {frag : List Nat} {w : Nat} {f1 f2 : ℚ} {f : List Nat}
    (h : tomono frag w f1 f2 = some f) :
    f.length = w * (frag.length / (w * 2)) ∧ frag.length % (w * 2) = 0 ∧ 0 < w := by
  unfold tomono at h
  split at h
  · exact absurd h (by simp)
  · split at h
    · exact absurd h (by simp)
    · rename_i hwok hmod
      have hw : 0 < w := by
        rcases not_not.mp hwok with h1 | h1 | h1 | h1 <;> omega
      have hdvd : (w * 2) ∣ frag.length := Nat.dvd_of_mod_eq_zero (not_not.mp hmod)
      simp only [Option.some.injEq] at h
      subst h
      refine ⟨?_, not_not.mp hmod, hw⟩
      rw [encodeWidth_length, List.length_map,
        chunkList_length_dvd (w * 2) frag (by omega) hdvd]

theorem tostereo_length {frag : List Nat} {w : Nat} {f1 f2 : ℚ} {f : List Nat}
    (h : tostereo frag w f1 f2 = some f) :
    f.length = 2 * w * (frag.length / w) ∧ frag.length % w = 0 ∧ 0 < w := by
  unfold tostereo at h
  split at h
  · exact absurd h (by simp)
  · split at h
    · exact absurd h (by simp)
    · rename_i hwok hmod
      have hw : 0 < w := by
        rcases not_not.mp hwok with h1 | h1 | h1 | h1 <;> omega
      have hdvd : w ∣ frag.length := Nat.dvd_of_mod_eq_zero (not_not.mp hmod)
      simp only [Option.some.injEq] at h
      subst h
      refine ⟨?_, not_not.mp hmod, hw⟩
      rw [flatten_const_length _ (2 * w) _
        (fun x _ => by simp [encSample_length]; ring),
        chunkList_length_dvd w frag hw hdvd]

theorem interpFrame_length (outr : Nat) (d : Int) (prev cur : List Int) :
    (interpFrame outr d prev cur).length = min prev.length cur.length := by
  simp [interpFrame]

theorem rcLoop_mem_length (inr outr nch : Nat) :
    ∀ (fs : List (List Int)) (cur : List Int) (d : Int),
      (∀ fr ∈ fs, fr.length = nch) → cur.length = nch →
      ∀ o ∈ rcLoop inr outr fs cur d, o.length = nch := by
  intro fs
  induction fs with
  | nil => intro cur d _ _ o ho; simp [rcLoop] at ho
  | cons f rest ih =>
    intro cur d hfs hcur o ho
    simp only [rcLoop, List.mem_append] at ho
    rcases ho with ho | ho
    · unfold emitRun at ho
      split at ho
      · simp only [List.mem_map] at ho
        obtain ⟨j, _, hj⟩ := ho
        rw [← hj, interpFrame_length, hcur, hfs f (by simp)]
        simp
      · simp at ho
    · exact ih f (afterRun inr (d + outr)) (fun fr hfr => hfs fr (by simp [hfr]))
        (hfs f (by simp)) o ho

theorem ratecv_dvd {frag : List Nat} {w nch inr outr : Nat} {f : List Nat}
    (h : ratecv frag w nch inr outr = some f) : (w * nch) ∣ f.length := by
  unfold ratecv at h
  split at h
  · exact absurd h (by simp)
  · split at h
    · exact absurd h (by simp)
    · split at h
      · exact absurd h (by simp)
      · split at h
        · exact absurd h (by simp)
        · rename_i hwok hnch hmod hrates
          have hw : 0 < w := by
            rcases not_not.mp hwok with h1 | h1 | h1 | h1 <;> omega
          have hnch2 : 0 < nch := by omega
          have hdvd : (w * nch) ∣ frag.length := Nat.dvd_of_mod_eq_zero (not_not.mp hmod)
          simp only [Option.some.injEq] at h
          subst h
          rw [encodeWidth_length, List.length_map]
          -- every chunk of width w has length w; sample count divisible by nch
          have hsdvd : nch ∣ ((chunkList w frag).map
              (fun bs => signedOfWidth w bs * 2 ^ (32 - 8 * w))).length := by
            rw [List.length_map, chunkList_length_dvd w frag hw (dvd_trans ⟨nch, rfl⟩ hdvd)]
            rcases hdvd with ⟨k, hk⟩
            rw [hk, Nat.mul_assoc, Nat.mul_div_cancel_left _ hw]
            exact ⟨k, rfl⟩
          have hframes := chunkList_mem_length nch _ hnch2 hsdvd
          have hout := rcLoop_mem_length (inr / Nat.gcd inr outr) (outr / Nat.gcd inr outr) nch
            (chunkList nch _) (List.replicate nch 0) (-(((outr / Nat.gcd inr outr) : Nat) : Int))
            hframes (by simp)
          have hflat := flatten_const_length' nch _ hout
          rw [hflat]
          exact ⟨(rcLoop (inr / Nat.gcd inr outr) (outr / Nat.gcd inr outr)
            (chunkList nch ((chunkList w frag).map
              (fun bs => signedOfWidth w bs * 2 ^ (32 - 8 * w))))
            (List.replicate nch 0) (-(((outr / Nat.gcd inr outr) : Nat) : Int))).length,
            by rw [Nat.mul_assoc]⟩

/-! Chunk-walk step lemmas for `scanChunks`. -/

theorem scanChunks_skip (tag4 payload rest : List Nat) (s : Nat)
    (f : Option (Nat × Nat × Nat)) (hlen : tag4.length = 4) (hnd : tag4 ≠ dataTagB)
    (hnf : tag4 ≠ fmtTag) (hp : payload.length = s) (hs : s < 2 ^ 32)
    (heven : s % 2 = 0) :
    scanChunks (tag4 ++ (u32le s ++ (payload ++ rest))) f = scanChunks rest f := by
  have hb8 : ¬ (tag4 ++ (u32le s ++ (payload ++ rest))).length < 8 := by
    simp [hlen, u32le]
    omega
  have ht : (tag4 ++ (u32le s ++ (payload ++ rest))).take 4 = tag4 :=
    List.take_left' hlen
  have hd4 : (tag4 ++ (u32le s ++ (payload ++ rest))).drop 4 =
      u32le s ++ (payload ++ rest) := List.drop_left' hlen
  have hd8 : (tag4 ++ (u32le s ++ (payload ++ rest))).drop 8 = payload ++ rest := by
    rw [show tag4 ++ (u32le s ++ (payload ++ rest)) =
      (tag4 ++ u32le s) ++ (payload ++ rest) by simp]
    exact List.drop_left' (by simp [hlen, u32le])
  rw [scanChunks, dif_neg hb8]
  simp only [ht, hd4, hd8, rd32_u32le_append s _ hs, if_neg hnd, if_neg hnf]
  rw [heven, Nat.add_zero, List.drop_left' hp]

theorem scanChunks_fmt (payload rest : List Nat) (s : Nat) (f0 : Option (Nat × Nat × Nat))
    (g : Nat × Nat × Nat) (hp : payload.length = s) (hs : s < 2 ^ 32) (heven : s % 2 = 0)
    (hparse : parseFmt payload = some g) :
    scanChunks (fmtTag ++ (u32le s ++ (payload ++ rest))) f0 = scanChunks rest (some g) := by
  have hlen : fmtTag.length = 4 := rfl
  have hb8 : ¬ (fmtTag ++ (u32le s ++ (payload ++ rest))).length < 8 := by
    simp [u32le, fmtTag]
  have ht : (fmtTag ++ (u32le s ++ (payload ++ rest))).take 4 = fmtTag :=
    List.take_left' hlen
  have hd4 : (fmtTag ++ (u32le s ++ (payload ++ rest))).drop 4 =
      u32le s ++ (payload ++ rest) := List.drop_left' hlen
  have hd8 : (fmtTag ++ (u32le s ++ (payload ++ rest))).drop 8 = payload ++ rest := by
    rw [show fmtTag ++ (u32le s ++ (payload ++ rest)) =
      (fmtTag ++ u32le s) ++ (payload ++ rest) by simp]
    exact List.drop_left' (by simp [u32le, fmtTag])
  rw [scanChunks, dif_neg hb8]
  simp only [ht, hd4, hd8, rd32_u32le_append s _ hs,
    if_neg (show fmtTag ≠ dataTagB by decide), if_pos rfl,
    List.take_left' hp, hparse]
  rw [heven, Nat.add_zero, List.drop_left' hp]
  simp

theorem scanChunks_data (rest : List Nat) (s : Nat) (g : Nat × Nat × Nat)
    (hs : s < 2 ^ 32) :
    scanChunks (dataTagB ++ (u32le s ++ rest)) (some g) = some (g, s, rest.take s) := by
  have hlen : dataTagB.length = 4 := rfl
  have hb8 : ¬ (dataTagB ++ (u32le s ++ rest)).length < 8 := by
    simp [u32le, dataTagB]
  have ht : (dataTagB ++ (u32le s ++ rest)).take 4 = dataTagB := List.take_left' hlen
  have hd4 : (dataTagB ++ (u32le s ++ rest)).drop 4 = u32le s ++ rest :=
    List.drop_left' hlen
  have hd8 : (dataTagB ++ (u32le s ++ rest)).drop 8 = rest := by
    rw [show dataTagB ++ (u32le s ++ rest) = (dataTagB ++ u32le s) ++ rest by simp]
    exact List.drop_left' (by simp [u32le, dataTagB])
  rw [scanChunks, dif_neg hb8]
  simp only [ht, hd4, hd8, rd32_u32le_append s _ hs, if_pos rfl]
  simp

theorem fmtChunk24_split (tc : Nat) (htc : tc = 1 ∨ tc = 2) :
    fmtChunk24 tc = fmtTag ++ (u32le 16 ++
      ((u16le 1 ++ u16le tc ++ u32le TARGET_RATE ++
        u32le (TARGET_RATE * tc * TARGET_WIDTH) ++ u16le (tc * TARGET_WIDTH) ++
        u16le (TARGET_WIDTH * 8)) ++ [])) := by
  rcases htc with rfl | rfl <;> decide

theorem parseFmt_canonical (tc : Nat) (htc : tc = 1 ∨ tc = 2) :
    parseFmt (u16le 1 ++ u16le tc ++ u32le TARGET_RATE ++
      u32le (TARGET_RATE * tc * TARGET_WIDTH) ++ u16le (tc * TARGET_WIDTH) ++
      u16le (TARGET_WIDTH * 8)) = some (tc, 48000, 2) := by
  rcases htc with rfl | rfl <;> decide

theorem CUE_split : CUE_CHUNK = [99, 117, 101, 32] ++ (u32le 28 ++
    (([1, 0, 0, 0, 1, 0, 0, 0, 0, 0, 0, 0] ++ [100, 97, 116, 97] ++
      List.replicate 12 0) ++ [])) := by decide

theorem LIST_split : LIST_CHUNK = [76, 73, 83, 84] ++ (u32le 30 ++
    (([97, 100, 116, 108, 108, 97, 98, 108] ++ [18, 0, 0, 0] ++ [1, 0, 0, 0] ++
      [84, 101, 109, 112, 111, 58, 32, 48, 48, 48, 46, 48] ++ [0, 0]) ++ [])) := by
  decide

theorem fmtChunk24_length (tc : Nat) : (fmtChunk24 tc).length = 24 := by
  simp [fmtChunk24, fmtTag, u16le, u32le]

/-- Parsing a `_to_pcm16_48k` output recovers the canonical parameters and
the audio data (up to whole frames). -/
theorem wave_read_buildFinal (tc : Nat) (audio : List Nat) (htc : tc = 1 ∨ tc = 2)
    (hb : 110 + audio.length < 2 ^ 32) :
    wave_read (buildFinal tc audio) = some ⟨tc, 2, 48000, audio.length,
      audio.take (audio.length / (tc * 2) * (tc * 2))⟩ := by
  have hbody : (buildFinal tc audio).drop 8 = waveTag ++ (fmtChunk24 tc ++ CUE_CHUNK ++
      LIST_CHUNK ++ dataTagB ++ u32le audio.length ++ audio) := by
    rw [buildFinal, show riffTag ++ u32le (110 + audio.length) ++ waveTag ++
      fmtChunk24 tc ++ CUE_CHUNK ++ LIST_CHUNK ++ dataTagB ++ u32le audio.length ++ audio =
      (riffTag ++ u32le (110 + audio.length)) ++ (waveTag ++ (fmtChunk24 tc ++ CUE_CHUNK ++
        LIST_CHUNK ++ dataTagB ++ u32le audio.length ++ audio)) by simp]
    exact List.drop_left' (by simp [riffTag, u32le])
  have hbodylen : (waveTag ++ (fmtChunk24 tc ++ CUE_CHUNK ++ LIST_CHUNK ++ dataTagB ++
      u32le audio.length ++ audio)).length = 110 + audio.length := by
    simp [waveTag, fmtChunk24_length, dataTagB, u32le,
      show CUE_CHUNK.length = 36 from rfl, show LIST_CHUNK.length = 38 from rfl]
    omega
  have htake4 : (buildFinal tc audio).take 4 = riffTag := by
    rw [buildFinal, show riffTag ++ u32le (110 + audio.length) ++ waveTag ++
      fmtChunk24 tc ++ CUE_CHUNK ++ LIST_CHUNK ++ dataTagB ++ u32le audio.length ++ audio =
      riffTag ++ (u32le (110 + audio.length) ++ (waveTag ++ (fmtChunk24 tc ++ CUE_CHUNK ++
        LIST_CHUNK ++ dataTagB ++ u32le audio.length ++ audio))) by simp]
    exact List.take_left' rfl
  have hd4 : (buildFinal tc audio).drop 4 = u32le (110 + audio.length) ++
      (waveTag ++ (fmtChunk24 tc ++ CUE_CHUNK ++ LIST_CHUNK ++ dataTagB ++
        u32le audio.length ++ audio)) := by
    rw [buildFinal, show riffTag ++ u32le (110 + audio.length) ++ waveTag ++
      fmtChunk24 tc ++ CUE_CHUNK ++ LIST_CHUNK ++ dataTagB ++ u32le audio.length ++ audio =
      riffTag ++ (u32le (110 + audio.length) ++ (waveTag ++ (fmtChunk24 tc ++ CUE_CHUNK ++
        LIST_CHUNK ++ dataTagB ++ u32le audio.length ++ audio))) by simp]
    exact List.drop_left' rfl
  have hscan : scanChunks (fmtChunk24 tc ++ CUE_CHUNK ++ LIST_CHUNK ++ dataTagB ++
      u32le audio.length ++ audio) none = some ((tc, 48000, 2), audio.length, audio) := by
    have hchain : fmtChunk24 tc ++ CUE_CHUNK ++ LIST_CHUNK ++ dataTagB ++
        u32le audio.length ++ audio =
        fmtTag ++ (u32le 16 ++
        ((u16le 1 ++ u16le tc ++ u32le TARGET_RATE ++
          u32le (TARGET_RATE * tc * TARGET_WIDTH) ++ u16le (tc * TARGET_WIDTH) ++
          u16le (TARGET_WIDTH * 8)) ++
          (CUE_CHUNK ++ (LIST_CHUNK ++ (dataTagB ++ (u32le audio.length ++ audio)))))) := by
      rw [fmtChunk24_split tc htc]
      simp
    rw [hchain, scanChunks_fmt _ _ _ _ _ (by rcases htc with rfl | rfl <;> decide)
      (by decide) (by decide) (parseFmt_canonical tc htc)]
    have hchain2 : CUE_CHUNK ++ (LIST_CHUNK ++ (dataTagB ++ (u32le audio.length ++ audio))) =
        [99, 117, 101, 32] ++ (u32le 28 ++
        (([1, 0, 0, 0, 1, 0, 0, 0, 0, 0, 0, 0] ++ [100, 97, 116, 97] ++
          List.replicate 12 0) ++
          (LIST_CHUNK ++ (dataTagB ++ (u32le audio.length ++ audio))))) := by
      rw [CUE_split]
      simp
    rw [hchain2, scanChunks_skip _ _ _ _ _ (by decide) (by decide) (by decide)
      (by decide) (by decide) (by decide)]
    have hchain3 : LIST_CHUNK ++ (dataTagB ++ (u32le audio.length ++ audio)) =
        [76, 73, 83, 84] ++ (u32le 30 ++
        (([97, 100, 116, 108, 108, 97, 98, 108] ++ [18, 0, 0, 0] ++ [1, 0, 0, 0] ++
          [84, 101, 109, 112, 111, 58, 32, 48, 48, 48, 46, 48] ++ [0, 0]) ++
          (dataTagB ++ (u32le audio.length ++ audio)))) := by
      rw [LIST_split]
      simp
    rw [hchain3, scanChunks_skip _ _ _ _ _ (by decide) (by decide) (by decide)
      (by decide) (by decide) (by decide)]
    rw [scanChunks_data _ _ _ (by omega), List.take_length]
  rw [wave_read]
  simp only [htake4, ne_eq, not_true_eq_false, if_false, ite_false, hd4,
    rd32_u32le_append _ _ hb, hbody, List.take_of_length_le (le_of_eq hbodylen),
    List.take_left' (show waveTag.length = 4 from rfl),
    List.drop_left' (show waveTag.length = 4 from rfl), hscan]

/-! Shape of the `wave` writer output and of `repack`. -/

theorem wave_write_shape {tc : Nat} {data orig : List Nat}
    (h : wave_write tc TARGET_WIDTH TARGET_RATE data = some orig) :
    36 + data.length < 2 ^ 32 ∧
    orig = riffTag ++ u32le (36 + data.length) ++ waveTag ++ fmtChunk24 tc ++
      (dataTagB ++ u32le data.length ++ data) := by
  unfold wave_write at h
  split at h
  · exact absurd h (by simp)
  · rename_i hb
    simp only [Option.some.injEq] at h
    subst h
    refine ⟨by omega, ?_⟩
    simp [fmtChunk24, List.append_assoc]

theorem orig_drop12 (tc : Nat) (data : List Nat) :
    (riffTag ++ u32le (36 + data.length) ++ waveTag ++ fmtChunk24 tc ++
      (dataTagB ++ u32le data.length ++ data)).drop 12 =
      fmtChunk24 tc ++ (dataTagB ++ u32le data.length ++ data) := by
  rw [show riffTag ++ u32le (36 + data.length) ++ waveTag ++ fmtChunk24 tc ++
    (dataTagB ++ u32le data.length ++ data) =
    (riffTag ++ u32le (36 + data.length) ++ waveTag) ++
      (fmtChunk24 tc ++ (dataTagB ++ u32le data.length ++ data)) by simp]
  exact List.drop_left' (by simp [riffTag, waveTag, u32le])

theorem orig_drop36 (tc : Nat) (data : List Nat) :
    (riffTag ++ u32le (36 + data.length) ++ waveTag ++ fmtChunk24 tc ++
      (dataTagB ++ u32le data.length ++ data)).drop 36 =
      dataTagB ++ u32le data.length ++ data := by
  rw [show riffTag ++ u32le (36 + data.length) ++ waveTag ++ fmtChunk24 tc ++
    (dataTagB ++ u32le data.length ++ data) =
    (riffTag ++ u32le (36 + data.length) ++ waveTag ++ fmtChunk24 tc) ++
      (dataTagB ++ u32le data.length ++ data) by simp]
  exact List.drop_left' (by
    simp [riffTag, waveTag, u32le, fmtChunk24_length])

theorem orig_drop44 (tc : Nat) (data : List Nat) :
    (riffTag ++ u32le (36 + data.length) ++ waveTag ++ fmtChunk24 tc ++
      (dataTagB ++ u32le data.length ++ data)).drop 44 = data := by
  rw [show riffTag ++ u32le (36 + data.length) ++ waveTag ++ fmtChunk24 tc ++
    (dataTagB ++ u32le data.length ++ data) =
    (riffTag ++ u32le (36 + data.length) ++ waveTag ++ fmtChunk24 tc ++
      (dataTagB ++ u32le data.length)) ++ data by simp]
  exact List.drop_left' (by
    simp [riffTag, waveTag, dataTagB, u32le, fmtChunk24_length])

/-- `repack` always succeeds below the 32-bit bound and produces exactly the
`buildFinal` shape. -/
theorem repack_eq (tc : Nat) (frames : List Nat) (hb : 110 + frames.length < 2 ^ 32) :
    repack tc frames = some (buildFinal tc frames) := by
  unfold repack wave_write
  rw [if_neg (by omega)]
  rw [show riffTag ++ u32le (36 + frames.length) ++ waveTag ++ fmtTag ++ u32le 16 ++
      u16le 1 ++ u16le tc ++ u32le TARGET_RATE ++ u32le (TARGET_RATE * tc * TARGET_WIDTH) ++
      u16le (tc * TARGET_WIDTH) ++ u16le (TARGET_WIDTH * 8) ++ dataTagB ++
      u32le frames.length ++ frames =
      riffTag ++ u32le (36 + frames.length) ++ waveTag ++ fmtChunk24 tc ++
        (dataTagB ++ u32le frames.length ++ frames) from by
    simp [fmtChunk24, List.append_assoc]]
  simp only [Option.some_bind]
  rw [orig_drop12, orig_drop36, orig_drop44,
    List.take_left' (fmtChunk24_length tc),
    List.take_left' (show (dataTagB ++ u32le frames.length).length = 8 by
      simp [dataTagB, u32le])]
  rw [if_neg (by
    simp [fmtChunk24_length, dataTagB, u32le,
      show CUE_CHUNK.length = 36 from rfl, show LIST_CHUNK.length = 38 from rfl]
    omega)]
  have harith : 4 + (fmtChunk24 tc).length + CUE_CHUNK.length + LIST_CHUNK.length +
      (dataTagB ++ u32le frames.length).length + frames.length = 110 + frames.length := by
    simp [fmtChunk24_length, dataTagB, u32le,
      show CUE_CHUNK.length = 36 from rfl, show LIST_CHUNK.length = 38 from rfl]
    try omega
  rw [harith]
  simp [buildFinal, List.append_assoc]

/-- Conversely, every `repack` success has the `buildFinal` shape. -/
theorem repack_shape {tc : Nat} {frames out : List Nat} (h : repack tc frames = some out) :
    out = buildFinal tc frames ∧ 110 + frames.length < 2 ^ 32 := by
  have hb : 110 + frames.length < 2 ^ 32 := by
    by_contra hcon
    unfold repack wave_write at h
    split at h
    · simp at h
    · rename_i h36
      rw [show riffTag ++ u32le (36 + frames.length) ++ waveTag ++ fmtTag ++ u32le 16 ++
          u16le 1 ++ u16le tc ++ u32le TARGET_RATE ++
          u32le (TARGET_RATE * tc * TARGET_WIDTH) ++
          u16le (tc * TARGET_WIDTH) ++ u16le (TARGET_WIDTH * 8) ++ dataTagB ++
          u32le frames.length ++ frames =
          riffTag ++ u32le (36 + frames.length) ++ waveTag ++ fmtChunk24 tc ++
            (dataTagB ++ u32le frames.length ++ frames) from by
        simp [fmtChunk24, List.append_assoc]] at h
      simp only [Option.some_bind] at h
      rw [orig_drop12, orig_drop36, orig_drop44,
        List.take_left' (fmtChunk24_length tc),
        List.take_left' (show (dataTagB ++ u32le frames.length).length = 8 by
          simp [dataTagB, u32le])] at h
      rw [if_pos (by
        simp [fmtChunk24_length, dataTagB, u32le,
          show CUE_CHUNK.length = 36 from rfl, show LIST_CHUNK.length = 38 from rfl]
        omega)] at h
      exact absurd h (by simp)
  rw [repack_eq tc frames hb] at h
  simp only [Option.some.injEq] at h
  exact ⟨h.symm, hb⟩

/-! Stage facts feeding the idempotence and round-trip claims. -/

theorem convertWidth_sw {a : WavData} {st1 : List Nat × Nat}
    (h : convertWidth a = some st1) : st1.2 = 2 := by
  unfold convertWidth at h
  split at h
  · simp only [Option.map_eq_some'] at h
    obtain ⟨f, _, hf⟩ := h
    rw [← hf]
    rfl
  · rename_i hsw
    simp only [Option.some.injEq] at h
    rw [← h]
    exact not_not.mp hsw

theorem convertWidth_len {a : WavData} {st1 : List Nat × Nat}
    (h : convertWidth a = some st1) (hvalid : (a.nch * a.sw) ∣ a.frames.length) :
    ∃ m, st1.1.length = 2 * (a.nch * m) := by
  unfold convertWidth at h
  split at h
  · simp only [Option.map_eq_some'] at h
    obtain ⟨f, hf, hst⟩ := h
    obtain ⟨hlen, hmod, hwpos⟩ := lin2lin_length hf
    obtain ⟨k, hk⟩ := hvalid
    refine ⟨k, ?_⟩
    rw [← hst]
    simp only [hlen, hk]
    rw [show a.nch * a.sw * k = a.sw * (a.nch * k) by ring,
      Nat.mul_div_cancel_left _ hwpos]
  · rename_i hsw
    have hsw2 : a.sw = 2 := by simpa [TARGET_WIDTH] using not_not.mp hsw
    simp only [Option.some.injEq] at h
    obtain ⟨k, hk⟩ := hvalid
    exact ⟨k, by rw [← h]; simp only [hk, hsw2]; ring⟩

theorem convertChannels_dvd {nch tc : Nat} {frames f2 : List Nat}
    (h : convertChannels nch tc frames 2 = some f2) (htc : tc = 1 ∨ tc = 2)
    (hlen : ∃ m, frames.length = 2 * (nch * m)) : (2 * tc) ∣ f2.length := by
  unfold convertChannels at h
  split at h
  · split at h
    · rename_i htc1
      obtain ⟨hl, _, _⟩ := tomono_length h
      exact ⟨frames.length / (2 * 2), by rw [hl, htc1]⟩
    · split at h
      · rename_i htc2
        obtain ⟨hl, _, _⟩ := tostereo_length h
        rw [htc2.1, hl]
        exact ⟨frames.length / 2, by ring⟩
      · rename_i htc1 htc2
        have htc2' : tc = 2 := by tauto
        obtain ⟨mono, hmono, hst⟩ := Option.bind_eq_some.mp h
        obtain ⟨hl, _, _⟩ := tostereo_length hst
        rw [htc2', hl]
        exact ⟨mono.length / 2, by ring⟩
  · rename_i hne
    have hnc : nch = tc := not_not.mp (by simpa using hne)
    simp only [Option.some.injEq] at h
    obtain ⟨m, hm⟩ := hlen
    exact ⟨m, by rw [← h, hm, hnc]; ring⟩

theorem convertRate_dvd {rate tc : Nat} {f2 f3 : List Nat}
    (h : convertRate rate tc f2 2 = some f3) (hdvd : (2 * tc) ∣ f2.length) :
    (2 * tc) ∣ f3.length := by
  unfold convertRate at h
  split at h
  · exact ratecv_dvd h
  · simp only [Option.some.injEq] at h
    rw [← h]
    exact hdvd

/-- Master lemma: every `_to_pcm16_48k` success is a `buildFinal` container,
and (for whole-frame inputs and a valid channel target) its audio data is a
whole number of output frames. -/
theorem to_pcm16_48k_spec {raw : List Nat} {tc : Nat} {out : List Nat}
    (h : to_pcm16_48k raw tc = some out) :
    ∃ audio, out = buildFinal tc audio ∧ 110 + audio.length < 2 ^ 32 ∧
      ((tc = 1 ∨ tc = 2) →
        (∀ a, wave_read raw = some a → (a.nch * a.sw) ∣ a.frames.length) →
        (2 * tc) ∣ audio.length) := by
  unfold to_pcm16_48k at h
  simp only [Option.bind_eq_some] at h
  obtain ⟨a, ha, st1, hst1, f2, hf2, f3, hf3, hrp⟩ := h
  obtain ⟨hout, hbound⟩ := repack_shape hrp
  refine ⟨f3, hout, hbound, ?_⟩
  intro htc hvalid
  have hsw := convertWidth_sw hst1
  rw [hsw] at hf2 hf3
  exact convertRate_dvd hf3 (convertChannels_dvd hf2 htc (convertWidth_len hst1 (hvalid a ha)))

/-! ## Extraction-scanner step lemmas -/

theorem isdtBlock_length (i wl : Nat) : (isdtBlock i wl).length = 18 := by
  simp [isdtBlock, ISDT_TAG, u32le]

/-- A non-signature position advances the scan by one byte. -/
theorem scanGo_skip (audio : List Nat) (pos count : Nat)
    (hR : (audio.drop pos).take 4 ≠ riffTag) (hlen : pos + 9 ≤ audio.length) :
    scanGo audio pos count = scanGo audio (pos + 1) count := by
  rw [scanGo, dif_pos (by omega), if_neg hR, if_neg (by omega)]

/-- A signature match (below the 15-match cap) emits the declared span and
jumps past it. -/
theorem scanGo_emit (audio : List Nat) (pos count : Nat)
    (hR : (audio.drop pos).take 4 = riffTag) (h8 : pos + 8 ≤ audio.length)
    (hc : count + 1 < 15) :
    scanGo audio pos count =
      ((audio.drop pos).take (rd32 (audio.drop (pos + 4)) + 8) ::
          (scanGo audio (pos + (rd32 (audio.drop (pos + 4)) + 8)) (count + 1)).1,
        (scanGo audio (pos + (rd32 (audio.drop (pos + 4)) + 8)) (count + 1)).2) := by
  rw [scanGo, dif_pos (by omega), if_pos hR, dif_pos h8, if_neg (by omega)]

/-- The fifteenth signature match emits its span and stops. -/
theorem scanGo_emit_last (audio : List Nat) (pos count : Nat)
    (hR : (audio.drop pos).take 4 = riffTag) (h8 : pos + 8 ≤ audio.length)
    (hc : count + 1 ≥ 15) :
    scanGo audio pos count =
      ([(audio.drop pos).take (rd32 (audio.drop (pos + 4)) + 8)], false) := by
  rw [scanGo, dif_pos (by omega), if_pos hR, dif_pos h8, if_pos hc]

/-- Scanning an 18-byte inter-payload block (and its trailing payload
signature) never finds a spurious `RIFF` match: the scan walks byte by byte
through the whole block. -/
theorem scanGo_block (audio : List Nat) (pos count i : Nat) (w rest : List Nat)
    (hdrop : audio.drop pos = isdtBlock i w.length ++ (w ++ rest))
    (hgp : GoodPayload w) (hi1 : 1 ≤ i) (hi14 : i ≤ 14) :
    scanGo audio pos count = scanGo audio (pos + 18) count ∧
      audio.drop (pos + 18) = w ++ rest := by
  obtain ⟨hr4, hlen8, hsz, hbound⟩ := hgp
  have hw : w = 82 :: 73 :: 70 :: 70 :: w.drop 4 := by
    have h4 := List.take_append_drop 4 w
    rw [hr4] at h4
    rw [← h4]
    rfl
  have hchain : audio.drop pos =
      0 :: 0 :: 73 :: 83 :: 68 :: 84 ::
      ((w.length + 18) % 256) :: ((w.length + 18) / 256 % 256) ::
      ((w.length + 18) / 2 ^ 16 % 256) :: ((w.length + 18) / 2 ^ 24 % 256) ::
      (i % 256) :: (i / 256 % 256) :: (i / 2 ^ 16 % 256) :: (i / 2 ^ 24 % 256) ::
      1 :: 0 :: 0 :: 0 ::
      (82 :: 73 :: 70 :: 70 :: (w.drop 4 ++ rest)) := by
    rw [hdrop]
    rw [show w ++ rest = 82 :: 73 :: 70 :: 70 :: (w.drop 4 ++ rest) from by
      rw [hw]; simp]
    simp [isdtBlock, ISDT_TAG, u32le]
  have hlen : audio.length = pos + 18 + w.length + rest.length := by
    have h1 : (audio.drop pos).length = audio.length - pos := by simp
    rw [hchain] at h1
    simp only [List.length_cons, List.length_append, List.length_drop] at h1
    omega
  have hd18 : audio.drop (pos + 18) = w ++ rest := by
    rw [← List.drop_drop, hchain]
    rw [show w ++ rest = 82 :: 73 :: 70 :: 70 :: (w.drop 4 ++ rest) from by
      rw [hw]; simp]
    rfl
  refine ⟨?_, hd18⟩
  have step : ∀ k : Nat, k < 18 →
      scanGo audio (pos + k) count = scanGo audio (pos + k + 1) count := by
    intro k hk
    apply scanGo_skip audio (pos + k) count _ (by omega)
    have hdk : audio.drop (pos + k) = (audio.drop pos).drop k := by
      rw [List.drop_drop]
    interval_cases k <;>
      (rw [hdk, hchain]
       first
        | decide
        | (intro hEq
           simp only [List.take, riffTag, List.cons.injEq] at hEq
           omega))
  have go : ∀ k : Nat, k ≤ 18 →
      scanGo audio (pos + 0) count = scanGo audio (pos + k) count := by
    intro k
    induction k with
    | zero => intro _; rfl
    | succ k2 ih =>
      intro hk2
      rw [ih (by omega), step k2 (by omega), Nat.add_assoc]
  have h0 := go 18 (by omega)
  rw [Nat.add_zero] at h0
  exact h0

/-- At a `GoodPayload` position the scanner emits exactly the payload and
jumps to its end. -/
theorem scanGo_payload_facts (audio : List Nat) (pos : Nat) (w rest : List Nat)
    (hdrop : audio.drop pos = w ++ rest) (hgp : GoodPayload w) :
    (audio.drop pos).take 4 = riffTag ∧
    rd32 (audio.drop (pos + 4)) + 8 = w.length ∧
    pos + 8 ≤ audio.length ∧
    (audio.drop pos).take w.length = w ∧
    audio.drop (pos + w.length) = rest := by
  obtain ⟨hr4, hlen8, hsz, _⟩ := hgp
  have hlen : audio.length = pos + w.length + rest.length := by
    have h1 : (audio.drop pos).length = audio.length - pos := by simp
    rw [hdrop] at h1
    simp only [List.length_append] at h1
    omega
  refine ⟨?_, ?_, by omega, ?_, ?_⟩
  · rw [hdrop, List.take_append_of_le_length (by omega), hr4]
  · have hd4 : audio.drop (pos + 4) = w.drop 4 ++ rest := by
      rw [← List.drop_drop, hdrop, List.drop_append_of_le_length (by omega)]
    rw [hd4]
    have : rd32 (w.drop 4 ++ rest) = rd32 (w.drop 4) := by
      unfold rd32
      rw [List.take_append_of_le_length (by simp; omega)]
    rw [this, hsz]
  · rw [hdrop, List.take_left]
  · rw [← List.drop_drop, hdrop, List.drop_left]

/-- Scanning the tail of the audio stream (payloads `i, i+1, …` each behind
an 18-byte block, then the 2-byte terminator) yields exactly those payloads. -/
theorem scanGo_stream : ∀ (ws : List (List Nat)) (audio : List Nat) (pos count i : Nat),
    audio.drop pos = payloadSeq i ws ++ [0, 0] →
    (∀ w ∈ ws, GoodPayload w) →
    1 ≤ i → i + ws.length ≤ 15 → count + ws.length = 15 →
    scanGo audio pos count = (ws, false)
  | [], audio, pos, count, i, hdrop, _, _, _, _ => by
    have hlen : audio.length = pos + 2 := by
      have h1 : (audio.drop pos).length = audio.length - pos := by simp
      rw [show payloadSeq i [] ++ [0, 0] = [0, 0] from rfl] at hdrop
      rw [hdrop] at h1
      simp only [List.length_cons, List.length_nil] at h1
      omega
    rw [scanGo, dif_pos (by omega), if_neg (by
      rw [show payloadSeq i [] ++ [0, 0] = [0, 0] from rfl] at hdrop
      rw [hdrop]
      decide), if_pos (by omega)]
  | w :: ws2, audio, pos, count, i, hdrop, hgps, hi1, hi15, hcount => by
    have hgw : GoodPayload w := hgps w (by simp)
    have hne : i ≠ 0 := by omega
    have hseq : payloadSeq i (w :: ws2) =
        isdtBlock i w.length ++ (w ++ payloadSeq (i + 1) ws2) := by
      rw [payloadSeq, if_neg hne]
      simp
    rw [hseq] at hdrop
    rw [show (isdtBlock i w.length ++ (w ++ payloadSeq (i + 1) ws2)) ++ [0, 0] =
      isdtBlock i w.length ++ ((w ++ (payloadSeq (i + 1) ws2 ++ [0, 0]))) from by
      simp] at hdrop
    obtain ⟨hskip, hd18⟩ := scanGo_block audio pos count i w
      (payloadSeq (i + 1) ws2 ++ [0, 0]) hdrop hgw hi1 (by
        simp only [List.length_cons] at hi15
        omega)
    obtain ⟨hr4, hsz, h8, htake, hdnext⟩ :=
      scanGo_payload_facts audio (pos + 18) w _ hd18 hgw
    rw [hskip]
    by_cases hlast : count + 1 ≥ 15
    · have hws2 : ws2 = [] := by
        simp only [List.length_cons] at hcount
        cases ws2 with
        | nil => rfl
        | cons a t => simp only [List.length_cons] at hcount; omega
      subst hws2
      rw [scanGo_emit_last audio (pos + 18) count hr4 h8 hlast]
      rw [show rd32 (audio.drop (pos + 18 + 4)) + 8 = w.length from hsz, htake]
    · have hrec := scanGo_stream ws2 audio (pos + 18 + w.length) (count + 1) (i + 1)
        hdnext (fun x hx => hgps x (by simp [hx]))
        (by omega)
        (by simp only [List.length_cons] at hi15; omega)
        (by simp only [List.length_cons] at hcount; omega)
      rw [scanGo_emit audio (pos + 18) count hr4 h8 (by omega),
        show rd32 (audio.drop (pos + 18 + 4)) + 8 = w.length from hsz, htake, hrec]
  termination_by ws => ws.length

/-- Scanning a full pack-produced audio stream (payload 0 bare, payloads
1–14 each behind their block) returns exactly the fifteen payloads. -/
theorem scanGo_full (w0 : List Nat) (ws : List (List Nat)) (audio : List Nat)
    (haudio : audio = w0 ++ (payloadSeq 1 ws ++ [0, 0]))
    (hgp0 : GoodPayload w0) (hgps : ∀ w ∈ ws, GoodPayload w)
    (hlen : ws.length = 14) :
    scanGo audio 0 0 = (w0 :: ws, false) := by
  have hdrop : audio.drop 0 = w0 ++ (payloadSeq 1 ws ++ [0, 0]) := by
    simpa using haudio
  obtain ⟨hr4, hsz, h8, htake, hdnext⟩ := scanGo_payload_facts audio 0 w0 _ hdrop hgp0
  rw [scanGo_emit audio 0 0 hr4 h8 (by omega),
    show rd32 (audio.drop (0 + 4)) + 8 = w0.length from hsz, htake,
    scanGo_stream ws audio (0 + w0.length) 1 1 hdnext hgps (by omega) (by omega)
      (by omega)]

/-! ## KTDT table lemmas -/

theorem foldl_length_inv {α : Type} (f : List Nat → α → List Nat) (P : Nat) :
    ∀ (l : List α) (buf : List Nat), buf.length = P →
      (∀ b x, x ∈ l → b.length = P → (f b x).length = P) →
      (l.foldl f buf).length = P
  | [], _, h, _ => h
  | x :: t, buf, h, hf =>
    foldl_length_inv f P t (f buf x) (hf buf x (by simp) h)
      (fun b y hy hb => hf b y (by simp [hy]) hb)

theorem setRange_length (buf : List Nat) (off : Nat) (xs : List Nat)
    (h : off + xs.length ≤ buf.length) : (setRange buf off xs).length = buf.length := by
  simp only [setRange, List.length_append, List.length_take, List.length_drop]
  omega

theorem get_param_suffix_length (v p pn fx : Int) :
    (get_param_suffix v p pn fx).length = 24 := by
  simp [get_param_suffix, u16le]

theorem truncPath_length_le (path : List Nat) :
    (if path.length > 256 then path.take 255 ++ [0] else path).length ≤ 256 := by
  split
  · simp
  · omega

theorem ktdtEntryStep_length (paths : List (List Nat)) (params : List SampleParams)
    (buf : List Nat) (i : Nat) (hb : buf.length = KTDT_SIZE) (hi : i < 15) :
    (ktdtEntryStep paths params buf i).length = KTDT_SIZE := by
  unfold ktdtEntryStep
  have hpath := truncPath_length_le (paths.getD i [])
  rw [setRange_length, setRange_length]
  · exact hb
  · rw [hb]
    simp only [KTDT_SIZE]
    omega
  · rw [setRange_length, hb]
    · simp only [KTDT_SIZE, get_param_suffix_length]
      omega
    · rw [hb]
      simp only [KTDT_SIZE]
      omega

theorem ktdt_fold_length (paths : List (List Nat)) (params : List SampleParams) :
    ((List.range 15).foldl (ktdtEntryStep paths params)
      (List.replicate KTDT_SIZE 0)).length = KTDT_SIZE :=
  foldl_length_inv _ KTDT_SIZE (List.range 15) _ (by simp)
    (fun b x hx hb => ktdtEntryStep_length paths params b x hb (List.mem_range.mp hx))

theorem build_ktdt_length (paths : List (List Nat)) (flen : Nat)
    (params : List SampleParams) : (build_ktdt paths flen params).length = KTDT_SIZE := by
  unfold build_ktdt
  rw [setRange_length, setRange_length]
  · exact ktdt_fold_length paths params
  · rw [ktdt_fold_length paths params]
    simp [KTDT_FOOTER, KTDT_SIZE]
  · rw [setRange_length]
    · rw [ktdt_fold_length paths params]
      simp [ISDT_TAG, u32le, KTDT_SIZE]
    · rw [ktdt_fold_length paths params]
      simp [KTDT_FOOTER, KTDT_SIZE]

/-- The first sample's block header embedded at offset 4212 of the KTDT
body: tag, size `first_wav_len + 18`, index 0, trailer constant. -/
theorem build_ktdt_drop4212 (paths : List (List Nat)) (flen : Nat)
    (params : List SampleParams) :
    (build_ktdt paths flen params).drop 4212 =
      ISDT_TAG ++ u32le (flen + 18) ++ u32le 0 ++ [1, 0, 0, 0] := by
  have h1 : build_ktdt paths flen params =
      setRange (setRange ((List.range 15).foldl (ktdtEntryStep paths params)
        (List.replicate KTDT_SIZE 0)) 4200 KTDT_FOOTER) 4212
        (ISDT_TAG ++ u32le (flen + 18) ++ u32le 0 ++ [1, 0, 0, 0]) := rfl
  rw [h1]
  have hb2 : (setRange ((List.range 15).foldl (ktdtEntryStep paths params)
      (List.replicate KTDT_SIZE 0)) 4200 KTDT_FOOTER).length = KTDT_SIZE := by
    rw [setRange_length]
    · exact ktdt_fold_length paths params
    · rw [ktdt_fold_length paths params]
      simp [KTDT_FOOTER, KTDT_SIZE]
  generalize hB : setRange ((List.range 15).foldl (ktdtEntryStep paths params)
    (List.replicate KTDT_SIZE 0)) 4200 KTDT_FOOTER = B
  rw [hB] at hb2
  unfold setRange
  rw [List.append_assoc]
  rw [List.drop_left' (by
    rw [List.length_take, hb2]
    rfl)]
  rw [List.drop_of_length_le (by
    rw [hb2]
    simp [ISDT_TAG, u32le, KTDT_SIZE])]
  simp

/-! ## Positional lemmas about the serialized container -/

theorem payloadSeq_length_ge1 : ∀ (ws : List (List Nat)) (j : Nat), 1 ≤ j →
    (payloadSeq j ws).length = ((ws.map (fun w => 18 + w.length)).sum)
  | [], _, _ => rfl
  | w :: t, j, hj => by
    rw [payloadSeq, if_neg (by omega)]
    simp only [List.length_append, isdtBlock_length, List.map_cons, List.sum_cons,
      payloadSeq_length_ge1 t (j + 1) (by omega)]
    try omega

theorem streamOff_le (ws : List (List Nat)) (k : Nat) :
    streamOff ws k ≤ (ws.map (fun w => 18 + w.length)).sum := by
  unfold streamOff
  calc ((ws.take k).map (fun w => 18 + w.length)).sum
      ≤ ((ws.take k).map (fun w => 18 + w.length)).sum +
        ((ws.drop k).map (fun w => 18 + w.length)).sum := by omega
    _ = (ws.map (fun w => 18 + w.length)).sum := by
        rw [← List.sum_append, ← List.map_append, List.take_append_drop]

/-- Dropping to the `k`-th block of a block-prefixed stream exposes that
block, its payload, and the remaining stream. -/
theorem payloadSeq_drop_block : ∀ (ws : List (List Nat)) (j k : Nat), 1 ≤ j →
    k < ws.length →
    (payloadSeq j ws).drop (streamOff ws k) =
      isdtBlock (j + k) ((ws.getD k []).length) ++
        ((ws.getD k []) ++ payloadSeq (j + k + 1) (ws.drop (k + 1)))
  | [], _, k, _, hk => by simp at hk
  | w :: t, j, 0, hj, _ => by
    rw [payloadSeq, if_neg (by omega)]
    simp [streamOff]
  | w :: t, j, k + 1, hj, hk => by
    rw [payloadSeq, if_neg (by omega)]
    have hoff : streamOff (w :: t) (k + 1) = (18 + w.length) + streamOff t k := by
      simp [streamOff]
    rw [hoff]
    rw [show isdtBlock j w.length ++ w ++ payloadSeq (j + 1) t =
      (isdtBlock j w.length ++ w) ++ payloadSeq (j + 1) t from by simp]
    rw [show (18 + w.length) + streamOff t k =
      (isdtBlock j w.length ++ w).length + streamOff t k from by
      simp [isdtBlock_length]]
    rw [List.drop_append]
    have hrec := payloadSeq_drop_block t (j + 1) k (by omega)
      (by simp only [List.length_cons] at hk; omega)
    rw [hrec]
    have h1 : j + 1 + k = j + (k + 1) := by omega
    rw [h1]
    rfl

/-- The serialized container past the fixed `0x10A4`-byte leading region is
exactly the audio stream. -/
theorem write_stk_drop_10A4 (ktdt : List Nat) (wavs : List (List Nat))
    (hk : ktdt.length = KTDT_SIZE) :
    (write_stk ktdt wavs).drop 0x10A4 =
      payloadSeq 0 wavs ++ (if wavs.isEmpty then [] else [0, 0]) := by
  unfold write_stk
  rw [show MAGIC ++ List.replicate 4 0 ++ u32le 0x10 ++ KTDT_TAG ++ u32le KTDT_SIZE ++
    List.replicate 4 0 ++ u32le 1 ++ ktdt ++ payloadSeq 0 wavs ++
    (if wavs.isEmpty then [] else [0, 0]) =
    (MAGIC ++ List.replicate 4 0 ++ u32le 0x10 ++ KTDT_TAG ++ u32le KTDT_SIZE ++
      List.replicate 4 0 ++ u32le 1 ++ ktdt) ++
    (payloadSeq 0 wavs ++ (if wavs.isEmpty then [] else [0, 0])) from by simp]
  exact List.drop_left' (by
    simp [MAGIC, KTDT_TAG, u32le, hk, KTDT_SIZE])

/-- The 16 bytes ending right at `0x10A4` are the table-embedded first block
header (KTDT offset 4212 = file offset 4244 = `0x10A4 - 16`). -/
theorem write_stk_drop_4244 (paths : List (List Nat)) (flen : Nat)
    (params : List SampleParams) (wavs : List (List Nat)) :
    (write_stk (build_ktdt paths flen params) wavs).drop 4244 =
      (ISDT_TAG ++ u32le (flen + 18) ++ u32le 0 ++ [1, 0, 0, 0]) ++
        (payloadSeq 0 wavs ++ (if wavs.isEmpty then [] else [0, 0])) := by
  unfold write_stk
  have hk := build_ktdt_length paths flen params
  have hsplit : build_ktdt paths flen params =
      (build_ktdt paths flen params).take 4212 ++
        (ISDT_TAG ++ u32le (flen + 18) ++ u32le 0 ++ [1, 0, 0, 0]) := by
    rw [← build_ktdt_drop4212 paths flen params, List.take_append_drop]
  rw [show MAGIC ++ List.replicate 4 0 ++ u32le 0x10 ++ KTDT_TAG ++ u32le KTDT_SIZE ++
    List.replicate 4 0 ++ u32le 1 ++ build_ktdt paths flen params ++
    payloadSeq 0 wavs ++ (if wavs.isEmpty then [] else [0, 0]) =
    (MAGIC ++ List.replicate 4 0 ++ u32le 0x10 ++ KTDT_TAG ++ u32le KTDT_SIZE ++
      List.replicate 4 0 ++ u32le 1 ++ (build_ktdt paths flen params).take 4212) ++
    ((ISDT_TAG ++ u32le (flen + 18) ++ u32le 0 ++ [1, 0, 0, 0]) ++
      (payloadSeq 0 wavs ++ (if wavs.isEmpty then [] else [0, 0]))) from by
    conv_lhs => rw [hsplit]
    simp]
  exact List.drop_left' (by
    simp only [List.length_append, List.length_take, hk]
    simp [MAGIC, KTDT_TAG, u32le, KTDT_SIZE])

/-! ## Padding and argmin lemmas (`_pick_samples`) -/

theorem getD_mem {α : Type} {d : α} : ∀ {l : List α} {j : Nat}, j < l.length →
    l.getD j d ∈ l
  | a :: t, 0, _ => by simp
  | a :: t, j + 1, h => by
    simp only [List.getD_cons_succ, List.mem_cons]
    exact Or.inr (getD_mem (by simp only [List.length_cons] at h; omega))

theorem argminLenAux_spec : ∀ (r : List (List Nat)) (best bestLen i : Nat),
    (argminLenAux r best bestLen i = best ∧ ∀ y ∈ r, bestLen ≤ y.length) ∨
    (∃ k, k < r.length ∧ argminLenAux r best bestLen i = i + k ∧
      (r.getD k []).length < bestLen ∧
      (∀ j, j < r.length → (r.getD k []).length ≤ (r.getD j []).length) ∧
      (∀ j, j < k → (r.getD k []).length < (r.getD j []).length))
  | [], best, bestLen, i => Or.inl ⟨rfl, by simp⟩
  | y :: r2, best, bestLen, i => by
    rw [argminLenAux]
    split
    · rename_i hlt
      rcases argminLenAux_spec r2 i y.length (i + 1) with ⟨heq, hall⟩ |
        ⟨k, hk, heq, hklt, hmin, hstrict⟩
      · right
        refine ⟨0, by simp, by rw [heq]; omega, by simpa using hlt, ?_, by omega⟩
        intro j hj
        cases j with
        | zero => simp
        | succ j2 =>
          simp only [List.getD_cons_zero, List.getD_cons_succ]
          exact hall _ (getD_mem (by simp only [List.length_cons] at hj; omega))
      · right
        refine ⟨k + 1, by simp only [List.length_cons]; omega,
          by rw [heq]; omega, ?_, ?_, ?_⟩
        · simp only [List.getD_cons_succ]
          omega
        · intro j hj
          cases j with
          | zero =>
            simp only [List.getD_cons_succ, List.getD_cons_zero]
            omega
          | succ j2 =>
            simp only [List.getD_cons_succ]
            exact hmin j2 (by simp only [List.length_cons] at hj; omega)
        · intro j hj
          cases j with
          | zero =>
            simp only [List.getD_cons_succ, List.getD_cons_zero]
            omega
          | succ j2 =>
            simp only [List.getD_cons_succ]
            exact hstrict j2 (by omega)
    · rename_i hge
      rcases argminLenAux_spec r2 best bestLen (i + 1) with ⟨heq, hall⟩ |
        ⟨k, hk, heq, hklt, hmin, hstrict⟩
      · left
        refine ⟨heq, ?_⟩
        intro z hz
        rcases List.mem_cons.mp hz with rfl | hz2
        · omega
        · exact hall z hz2
      · right
        refine ⟨k + 1, by simp only [List.length_cons]; omega,
          by rw [heq]; omega, ?_, ?_, ?_⟩
        · simp only [List.getD_cons_succ]
          omega
        · intro j hj
          cases j with
          | zero =>
            simp only [List.getD_cons_succ, List.getD_cons_zero]
            omega
          | succ j2 =>
            simp only [List.getD_cons_succ]
            exact hmin j2 (by simp only [List.length_cons] at hj; omega)
        · intro j hj
          cases j with
          | zero =>
            simp only [List.getD_cons_succ, List.getD_cons_zero]
            omega
          | succ j2 =>
            simp only [List.getD_cons_succ]
            exact hstrict j2 (by omega)

/-- `min(range(len(l)), key=...)` returns the first index of minimal
length. -/
theorem argminLen_spec (l : List (List Nat)) (hl : l ≠ []) :
    ∃ m, argminLen l = some m ∧ m < l.length ∧
      (∀ j, j < l.length → (l.getD m []).length ≤ (l.getD j []).length) ∧
      (∀ j, j < m → (l.getD m []).length < (l.getD j []).length) := by
  cases l with
  | nil => exact absurd rfl hl
  | cons x r =>
    rcases argminLenAux_spec r 0 x.length 1 with ⟨heq, hall⟩ |
      ⟨k, hk, heq, hklt, hmin, hstrict⟩
    · refine ⟨0, by rw [argminLen, heq], by simp, ?_, by omega⟩
      intro j hj
      cases j with
      | zero => simp
      | succ j2 =>
        simp only [List.getD_cons_zero, List.getD_cons_succ]
        exact hall _ (getD_mem (by simp only [List.length_cons] at hj; omega))
    · refine ⟨1 + k, by rw [argminLen, heq], by simp only [List.length_cons]; omega,
        ?_, ?_⟩
      · intro j hj
        have hgd : (x :: r).getD (1 + k) [] = r.getD k [] := by
          rw [show 1 + k = k + 1 by omega]
          simp
        rw [hgd]
        cases j with
        | zero =>
          simp only [List.getD_cons_zero]
          omega
        | succ j2 =>
          simp only [List.getD_cons_succ]
          exact hmin j2 (by simp only [List.length_cons] at hj; omega)
      · intro j hj
        have hgd : (x :: r).getD (1 + k) [] = r.getD k [] := by
          rw [show 1 + k = k + 1 by omega]
          simp
        rw [hgd]
        cases j with
        | zero =>
          simp only [List.getD_cons_zero]
          omega
        | succ j2 =>
          simp only [List.getD_cons_succ]
          exact hstrict j2 (by omega)

/-- Closed form of the padding loop: append `n` copies of the smallest
sample, each named with its resulting 1-based position. -/
theorem padLoop_spec : ∀ (n : Nat) (s : List Nat) (sn : String)
    (conv : List (List Nat)) (nms : List String), conv.length + n = 15 →
    padLoop s sn conv nms =
      (conv ++ List.replicate n s,
       nms ++ (List.range n).map (fun j => sn ++ "_pad" ++ toString (conv.length + 1 + j)))
  | 0, s, sn, conv, nms => by
    intro h
    rw [padLoop, if_neg (by omega)]
    simp
  | n + 1, s, sn, conv, nms => by
    intro h
    rw [padLoop, if_pos (by omega)]
    rw [padLoop_spec n s sn (conv ++ [s]) _ (by simp; omega)]
    simp only [List.length_append, List.length_cons, List.length_nil]
    congr 1
    · simp [List.replicate_succ]
    · rw [List.range_succ_eq_map, List.map_cons, List.map_map, List.append_assoc,
        List.singleton_append]
      congr 1
      congr 1
      · refine List.map_congr_left (fun a _ => ?_)
        exact congrArg (fun m => sn ++ "_pad" ++ toString m)
          (by omega : conv.length + (0 + 1) + 1 + a = conv.length + 1 + (a + 1))

theorem mapM_option_sound {α β : Type} (f : α → Option β) : ∀ l : List α,
    (∀ a ∈ l, (f a).isSome) →
    ∃ r, l.mapM f = some r ∧ r.length = l.length ∧ (∀ x ∈ r, ∃ a ∈ l, f a = some x)
  | [], _ => ⟨[], rfl, by simp, by simp⟩
  | a :: t, h => by
    obtain ⟨b, hb⟩ := Option.isSome_iff_exists.mp (h a (by simp))
    obtain ⟨r, hr, hrl, hrm⟩ := mapM_option_sound f t (fun x hx => h x (by simp [hx]))
    refine ⟨b :: r, ?_, by simp [hrl], ?_⟩
    · rw [List.mapM_cons]
      show (f a).bind (fun b2 => (t.mapM f).bind (fun r2 => some (b2 :: r2))) = _
      rw [hb, Option.some_bind, hr, Option.some_bind]
    · intro x hx
      rcases List.mem_cons.mp hx with rfl | hx2
      · exact ⟨a, by simp, hb⟩
      · obtain ⟨a2, ha2, hfa2⟩ := hrm x hx2
        exact ⟨a2, by simp [ha2], hfa2⟩

/-- Padding spec: for `1 ≤ k < 15` inputs, `_pick_samples` returns the
inputs followed by `15 - k` copies of the first smallest converted WAV, the
padded names carrying 1-based position suffixes. -/
theorem pick_samples_pad_spec (converted : List (List Nat)) (names : List String)
    (h1 : 1 ≤ converted.length) (h15 : converted.length < 15)
    (hn : names.length = converted.length) :
    ∃ m, argminLen converted = some m ∧ m < converted.length ∧
      pick_samples_pad converted names =
        some (converted ++ List.replicate (15 - converted.length) (converted.getD m []),
          names ++ (List.range (15 - converted.length)).map
            (fun j => names.getD m "" ++ "_pad" ++ toString (converted.length + 1 + j))) ∧
      (∀ j, j < converted.length →
        (converted.getD m []).length ≤ (converted.getD j []).length) ∧
      (∀ j, j < m → (converted.getD m []).length < (converted.getD j []).length) := by
  obtain ⟨m, hm, hmlt, hmin, hstrict⟩ :=
    argminLen_spec converted (by intro hc; rw [hc] at h1; simp at h1)
  refine ⟨m, hm, hmlt, ?_, hmin, hstrict⟩
  unfold pick_samples_pad
  rw [if_pos h15, hm]
  show some ((padLoop (converted.getD m []) (names.getD m "") converted names).1.take 15,
    (padLoop (converted.getD m []) (names.getD m "") converted names).2.take 15) = _
  rw [padLoop_spec (15 - converted.length) (converted.getD m []) (names.getD m "")
    converted names (by omega)]
  have hl1 : (converted ++ List.replicate (15 - converted.length)
      (converted.getD m [])).length = 15 := by
    simp
    omega
  have hl2 : (names ++ (List.range (15 - converted.length)).map
      (fun j => names.getD m "" ++ "_pad" ++
        toString (converted.length + 1 + j))).length = 15 := by
    simp [hn]
    omega
  show some ((converted ++ List.replicate (15 - converted.length)
      (converted.getD m [])).take 15,
    (names ++ (List.range (15 - converted.length)).map
      (fun j => names.getD m "" ++ "_pad" ++
        toString (converted.length + 1 + j))).take 15) = _
  rw [List.take_of_length_le (le_of_eq hl1), List.take_of_length_le (le_of_eq hl2)]

/-! ## Slice lemmas for `setRange` and the KTDT entry loop -/

/-- A `setRange` write at or past `a + l` leaves the slice `[a, a+l)`
unchanged. -/
theorem setRange_outside (buf : List Nat) (off : Nat) (xs : List Nat) (a l : Nat)
    (h1 : a + l ≤ off) (h2 : off ≤ buf.length) :
    ((setRange buf off xs).drop a).take l = (buf.drop a).take l := by
  unfold setRange
  rw [show buf.take off ++ xs ++ buf.drop (off + xs.length) =
    buf.take off ++ (xs ++ buf.drop (off + xs.length)) from by simp]
  rw [List.drop_append_eq_append_drop, List.take_append_eq_append_take]
  have hlt : (buf.take off).length = off := by simp; omega
  rw [show a - (buf.take off).length = 0 from by omega,
    show l - ((buf.take off).drop a).length = 0 from by simp; omega]
  simp only [List.drop_zero, List.take_zero, List.append_nil]
  rw [List.drop_take, List.take_take]
  congr 1
  omega

/-- Reading back exactly the bytes a `setRange` wrote. -/
theorem setRange_at (buf : List Nat) (off : Nat) (xs : List Nat)
    (h : off + xs.length ≤ buf.length) :
    ((setRange buf off xs).drop off).take xs.length = xs := by
  unfold setRange
  rw [show buf.take off ++ xs ++ buf.drop (off + xs.length) =
    buf.take off ++ (xs ++ buf.drop (off + xs.length)) from by simp]
  rw [List.drop_left' (by simp; omega), List.take_left]

theorem ktdtEntryStep_outside (paths : List (List Nat)) (params : List SampleParams)
    (b : List Nat) (j a l : Nat) (hb : b.length = KTDT_SIZE) (hj : j < 15)
    (hal : a + l ≤ j * 280) :
    ((ktdtEntryStep paths params b j).drop a).take l = (b.drop a).take l := by
  unfold ktdtEntryStep
  have hpath := truncPath_length_le (paths.getD j [])
  have hlen1 : (setRange b (j * 280)
      (if (paths.getD j []).length > 256 then (paths.getD j []).take 255 ++ [0]
       else paths.getD j [])).length = KTDT_SIZE := by
    rw [setRange_length, hb]
    rw [hb]
    simp only [KTDT_SIZE]
    omega
  rw [setRange_outside _ _ _ a l (by omega) (by rw [hlen1]; simp only [KTDT_SIZE]; omega)]
  rw [setRange_outside _ _ _ a l (by omega) (by rw [hb]; simp only [KTDT_SIZE]; omega)]

theorem foldl_preserves_slice (paths : List (List Nat)) (params : List SampleParams) :
    ∀ (l : List Nat) (b : List Nat) (a len : Nat), b.length = KTDT_SIZE →
      (∀ j ∈ l, j < 15 ∧ a + len ≤ j * 280) →
      ((l.foldl (ktdtEntryStep paths params) b).drop a).take len = (b.drop a).take len
  | [], _, _, _, _, _ => rfl
  | j :: t, b, a, len, hb, hl => by
    have hj := hl j (by simp)
    rw [List.foldl_cons,
      foldl_preserves_slice paths params t _ a len
        (ktdtEntryStep_length paths params b j hb hj.1)
        (fun x hx => hl x (by simp [hx])),
      ktdtEntryStep_outside paths params b j a len hb hj.1 hj.2]

/-- After the 15-entry loop, entry `i`'s path region holds the (possibly
truncated) path. -/
theorem ktdt_fold_path_slice (paths : List (List Nat)) (params : List SampleParams)
    (i : Nat) (hi : i < 15) :
    ((((List.range 15).foldl (ktdtEntryStep paths params)
        (List.replicate KTDT_SIZE 0)).drop (i * 280)).take
      (if (paths.getD i []).length > 256 then (paths.getD i []).take 255 ++ [0]
       else paths.getD i []).length) =
      (if (paths.getD i []).length > 256 then (paths.getD i []).take 255 ++ [0]
       else paths.getD i []) := by
  have hsplit : (15 : Nat) = (i + 1) + (14 - i) := by omega
  rw [hsplit, List.range_add, List.foldl_append]
  have hbase : ((List.range (i + 1)).foldl (ktdtEntryStep paths params)
      (List.replicate KTDT_SIZE 0)).length = KTDT_SIZE :=
    foldl_length_inv _ KTDT_SIZE _ _ (by simp)
      (fun b x hx hb => ktdtEntryStep_length paths params b x hb
        (by have := List.mem_range.mp hx; omega))
  have hpath := truncPath_length_le (paths.getD i [])
  rw [foldl_preserves_slice paths params _ _ _ _ hbase (fun j hj => by
    obtain ⟨k, hk, rfl⟩ := List.mem_map.mp hj
    have := List.mem_range.mp hk
    constructor
    · omega
    · have h1 : (if (paths.getD i []).length > 256 then (paths.getD i []).take 255 ++ [0]
        else paths.getD i []).length ≤ 256 := hpath
      have h2 : i * 280 + 280 ≤ (i + 1 + k) * 280 := by
        have : (i + 1) * 280 ≤ (i + 1 + k) * 280 := Nat.mul_le_mul_right _ (by omega)
        omega
      omega)]
  rw [List.range_succ, List.foldl_append, List.foldl_cons, List.foldl_nil]
  have hbase2 : ((List.range i).foldl (ktdtEntryStep paths params)
      (List.replicate KTDT_SIZE 0)).length = KTDT_SIZE :=
    foldl_length_inv _ KTDT_SIZE _ _ (by simp)
      (fun b x hx hb => ktdtEntryStep_length paths params b x hb
        (by have := List.mem_range.mp hx; omega))
  have hstep : ktdtEntryStep paths params
      ((List.range i).foldl (ktdtEntryStep paths params) (List.replicate KTDT_SIZE 0)) i =
      setRange (setRange ((List.range i).foldl (ktdtEntryStep paths params)
          (List.replicate KTDT_SIZE 0)) (i * 280)
        (if (paths.getD i []).length > 256 then (paths.getD i []).take 255 ++ [0]
         else paths.getD i []))
        (i * 280 + 256)
        (get_param_suffix (params.getD i {}).volume (params.getD i {}).pitch
          (params.getD i {}).pan (params.getD i {}).fx_send) := rfl
  rw [hstep]
  have hlen1 : (setRange ((List.range i).foldl (ktdtEntryStep paths params)
      (List.replicate KTDT_SIZE 0)) (i * 280)
      (if (paths.getD i []).length > 256 then (paths.getD i []).take 255 ++ [0]
       else paths.getD i [])).length = KTDT_SIZE := by
    rw [setRange_length, hbase2]
    rw [hbase2]
    simp only [KTDT_SIZE]
    omega
  rw [setRange_outside _ _ _ _ _ (by omega)
    (by rw [hlen1]; simp only [KTDT_SIZE]; omega)]
  exact setRange_at _ _ _ (by rw [hbase2]; simp only [KTDT_SIZE]; omega)

/-- The path region of entry `i` in the final KTDT body. -/
theorem build_ktdt_path_slice (paths : List (List Nat)) (flen : Nat)
    (params : List SampleParams) (i : Nat) (hi : i < 15) :
    (((build_ktdt paths flen params).drop (i * 280)).take
      (if (paths.getD i []).length > 256 then (paths.getD i []).take 255 ++ [0]
       else paths.getD i []).length) =
      (if (paths.getD i []).length > 256 then (paths.getD i []).take 255 ++ [0]
       else paths.getD i []) := by
  have h1 : build_ktdt paths flen params =
      setRange (setRange ((List.range 15).foldl (ktdtEntryStep paths params)
        (List.replicate KTDT_SIZE 0)) 4200 KTDT_FOOTER) 4212
        (ISDT_TAG ++ u32le (flen + 18) ++ u32le 0 ++ [1, 0, 0, 0]) := rfl
  have hfold := ktdt_fold_length paths params
  have hfoot : (setRange ((List.range 15).foldl (ktdtEntryStep paths params)
      (List.replicate KTDT_SIZE 0)) 4200 KTDT_FOOTER).length = KTDT_SIZE := by
    rw [setRange_length, hfold]
    rw [hfold]
    simp [KTDT_FOOTER, KTDT_SIZE]
  have hpath := truncPath_length_le (paths.getD i [])
  rw [h1]
  rw [setRange_outside _ _ _ _ _ (by omega) (by rw [hfoot]; simp only [KTDT_SIZE]; omega)]
  rw [setRange_outside _ _ _ _ _ (by omega) (by rw [hfold]; simp only [KTDT_SIZE]; omega)]
  exact ktdt_fold_path_slice paths params i hi

/-- If no signature match occurs with fewer than 8 bytes left from the match
position, the scan never hits the truncated-size-field exception. -/
theorem scanGo_no_crash (audio : List Nat) : ∀ pos count,
    (∀ p, p < audio.length → (audio.drop p).take 4 = riffTag →
      p + 8 ≤ audio.length) →
    (scanGo audio pos count).2 = false
  | pos, count, hsafe => by
    rw [scanGo]
    by_cases h1 : pos < audio.length
    · rw [dif_pos h1]
      by_cases hR : (audio.drop pos).take 4 = riffTag
      · rw [if_pos hR]
        have h8 : pos + 8 ≤ audio.length := hsafe pos h1 hR
        rw [dif_pos h8]
        by_cases hc : count + 1 ≥ 15
        · rw [if_pos hc]
        · rw [if_neg hc]
          exact scanGo_no_crash audio
            (pos + (rd32 (audio.drop (pos + 4)) + 8)) (count + 1) hsafe
      · rw [if_neg hR]
        by_cases hstop : pos + 1 + 8 > audio.length
        · rw [if_pos hstop]
        · rw [if_neg hstop]
          exact scanGo_no_crash audio (pos + 1) count hsafe
    · rw [dif_neg h1]
  termination_by pos _ _ => audio.length - pos
  decreasing_by all_goals omega

/-! ## Pack-pipeline helper lemmas -/

theorem buildFinal_length (tc : Nat) (audio : List Nat) :
    (buildFinal tc audio).length = 118 + audio.length := by
  simp [buildFinal, riffTag, waveTag, dataTagB, u32le, fmtChunk24_length,
    show CUE_CHUNK.length = 36 from rfl, show LIST_CHUNK.length = 38 from rfl]
  omega

theorem buildFinal_assoc (tc : Nat) (audio : List Nat) :
    buildFinal tc audio = riffTag ++ (u32le (110 + audio.length) ++
      (waveTag ++ fmtChunk24 tc ++ CUE_CHUNK ++ LIST_CHUNK ++ dataTagB ++
        u32le audio.length ++ audio)) := by
  simp [buildFinal, List.append_assoc]

theorem GoodPayload_buildFinal (tc : Nat) (audio : List Nat)
    (h : (buildFinal tc audio).length + 18 < 2 ^ 24) :
    GoodPayload (buildFinal tc audio) := by
  have hlen := buildFinal_length tc audio
  refine ⟨?_, by omega, ?_, h⟩
  · rw [buildFinal_assoc]
    exact List.take_left' rfl
  · rw [buildFinal_assoc]
    have hd4 : (riffTag ++ (u32le (110 + audio.length) ++
        (waveTag ++ fmtChunk24 tc ++ CUE_CHUNK ++ LIST_CHUNK ++ dataTagB ++
          u32le audio.length ++ audio))).drop 4 =
        u32le (110 + audio.length) ++
          (waveTag ++ fmtChunk24 tc ++ CUE_CHUNK ++ LIST_CHUNK ++ dataTagB ++
            u32le audio.length ++ audio) := List.drop_left' rfl
    rw [hd4, rd32_u32le_append _ _ (by omega)]
    rw [← buildFinal_assoc, hlen]
    omega

/-- The signature and size field of a normalized container, with no bound on
its size beyond the 32-bit field itself. -/
theorem buildFinal_size_field (tc : Nat) (audio : List Nat)
    (hb : 110 + audio.length < 2 ^ 32) :
    (buildFinal tc audio).take 4 = riffTag ∧
    rd32 ((buildFinal tc audio).drop 4) + 8 = (buildFinal tc audio).length := by
  have hlen := buildFinal_length tc audio
  constructor
  · rw [buildFinal_assoc]
    exact List.take_left' rfl
  · rw [buildFinal_assoc]
    have hd4 : (riffTag ++ (u32le (110 + audio.length) ++
        (waveTag ++ fmtChunk24 tc ++ CUE_CHUNK ++ LIST_CHUNK ++ dataTagB ++
          u32le audio.length ++ audio))).drop 4 =
        u32le (110 + audio.length) ++
          (waveTag ++ fmtChunk24 tc ++ CUE_CHUNK ++ LIST_CHUNK ++ dataTagB ++
            u32le audio.length ++ audio) := List.drop_left' rfl
    rw [hd4, rd32_u32le_append _ _ (by omega)]
    rw [← buildFinal_assoc, hlen]
    omega

/-- On an already-normalized container, every stage of the normalizer is the
identity and the re-encoding reproduces the container byte-for-byte. -/
theorem to_pcm16_48k_buildFinal_self (tc : Nat) (audio : List Nat)
    (htc : tc = 1 ∨ tc = 2) (hb : 110 + audio.length < 2 ^ 32)
    (hdvd : (2 * tc) ∣ audio.length) :
    to_pcm16_48k (buildFinal tc audio) tc = some (buildFinal tc audio) := by
  unfold to_pcm16_48k
  rw [wave_read_buildFinal tc audio htc hb, Option.some_bind]
  have htake : audio.take (audio.length / (tc * 2) * (tc * 2)) = audio := by
    rw [show tc * 2 = 2 * tc from by ring, Nat.div_mul_cancel hdvd]
    simp
  rw [htake]
  have hcw : convertWidth ⟨tc, 2, 48000, audio.length, audio⟩ = some (audio, 2) := by
    unfold convertWidth
    rw [if_neg (by dsimp only; decide)]
  rw [hcw, Option.some_bind]
  dsimp only
  have hcc : convertChannels tc tc audio 2 = some audio := by
    unfold convertChannels
    rw [if_neg (by simp)]
  rw [hcc, Option.some_bind]
  have hcr : convertRate 48000 tc audio 2 = some audio := by
    unfold convertRate
    rw [if_neg (by decide)]
  rw [hcr, Option.some_bind]
  exact repack_eq tc audio hb

/-- The pack pipeline, unfolded through its monadic binds. -/
theorem pack_eq (assets : List (List Nat)) (names : List String) (title : String)
    (tc : Nat) (params : List SampleParams) (converted : List (List Nat))
    (r : List (List Nat) × List String)
    (hsel : assets.length ≤ 15)
    (hmap : assets.mapM (fun a => to_pcm16_48k a tc) = some converted)
    (hpick : pick_samples_pad converted (names.take 15) = some r) :
    pack assets names title tc params =
      some (write_stk (build_ktdt (make_paths title r.2) ((r.1.headD []).length)
        params) r.1) := by
  unfold pack
  rw [List.take_of_length_le hsel]
  show (assets.mapM fun a => to_pcm16_48k a tc).bind (fun converted2 =>
    (pick_samples_pad converted2 (names.take 15)).bind (fun r2 =>
      some (write_stk (build_ktdt (make_paths title r2.2) ((r2.1.headD []).length)
        params) r2.1))) = _
  rw [hmap, Option.some_bind, hpick, Option.some_bind]

theorem getD_replicate {α : Type} (n i : Nat) (s d : α) (h : i < n) :
    (List.replicate n s).getD i d = s := by
  rw [List.getD_eq_getElem?_getD, List.getElem?_replicate, if_pos h]
  rfl

/-- `_pick_samples` succeeds on any non-empty converted list of at most 15
entries, and every returned payload is one of the converted inputs. -/
theorem pick_samples_pad_wavs (converted : List (List Nat)) (nms : List String)
    (h1 : 1 ≤ converted.length) (h15 : converted.length ≤ 15) :
    ∃ wavs nms2, pick_samples_pad converted nms = some (wavs, nms2) ∧
      wavs.length = 15 ∧ ∀ w ∈ wavs, w ∈ converted := by
  by_cases hlt : converted.length < 15
  · obtain ⟨m, hm, hmlt, _, _⟩ :=
      argminLen_spec converted (by intro hc; rw [hc] at h1; simp at h1)
    refine ⟨converted ++ List.replicate (15 - converted.length) (converted.getD m []),
      (nms ++ (List.range (15 - converted.length)).map
        (fun j => nms.getD m "" ++ "_pad" ++
          toString (converted.length + 1 + j))).take 15, ?_, ?_, ?_⟩
    · unfold pick_samples_pad
      rw [if_pos hlt, hm]
      show some ((padLoop (converted.getD m []) (nms.getD m "") converted nms).1.take 15,
        (padLoop (converted.getD m []) (nms.getD m "") converted nms).2.take 15) = _
      rw [padLoop_spec (15 - converted.length) (converted.getD m []) (nms.getD m "")
        converted nms (by omega)]
      rw [List.take_of_length_le (by simp; omega)]
    · simp
      omega
    · intro w hw
      rcases List.mem_append.mp hw with h | h
      · exact h
      · rw [List.eq_of_mem_replicate h]
        exact getD_mem hmlt
  · refine ⟨converted.take 15, nms.take 15, ?_, ?_, fun w hw => List.take_subset _ _ hw⟩
    · unfold pick_samples_pad
      rw [if_neg hlt]
    · rw [List.length_take]
      omega

/-- Sums of `18 + length` over a prefix, split into the block and payload
contributions. -/
theorem sum_map_add18 : ∀ (l : List (List Nat)),
    ((l.map (fun w => 18 + w.length)).sum) = 18 * l.length + (l.map List.length).sum
  | [] => rfl
  | w :: t => by
    simp only [List.map_cons, List.sum_cons, List.length_cons, sum_map_add18 t]
    ring

/-- Reading the pieces of a 16-byte ISDT block header exposed by a `drop`
equation. -/
theorem drop_block_reads (out : List Nat) (hdr L i : Nat) (tail : List Nat)
    (hL : L < 2 ^ 32) (hi : i < 2 ^ 32)
    (h : out.drop hdr = ISDT_TAG ++ u32le L ++ u32le i ++ [1, 0, 0, 0] ++ tail) :
    (out.drop hdr).take 16 = ISDT_TAG ++ u32le L ++ u32le i ++ [1, 0, 0, 0] ∧
    rd32 (out.drop (hdr + 4)) = L ∧
    rd32 (out.drop (hdr + 8)) = i ∧
    out.drop (hdr + 16) = tail := by
  have hassoc : ISDT_TAG ++ u32le L ++ u32le i ++ [1, 0, 0, 0] ++ tail =
      ISDT_TAG ++ (u32le L ++ (u32le i ++ ([1, 0, 0, 0] ++ tail))) := by
    simp
  have h4 : out.drop (hdr + 4) = u32le L ++ (u32le i ++ ([1, 0, 0, 0] ++ tail)) := by
    rw [← List.drop_drop, h, hassoc]
    exact List.drop_left' rfl
  have h8 : out.drop (hdr + 8) = u32le i ++ ([1, 0, 0, 0] ++ tail) := by
    rw [show hdr + 8 = hdr + 4 + 4 from by omega, ← List.drop_drop, h4]
    exact List.drop_left' (by simp [u32le])
  have h16 : out.drop (hdr + 16) = tail := by
    rw [show hdr + 16 = hdr + 8 + 8 from by omega, ← List.drop_drop, h8]
    rw [show u32le i ++ ([1, 0, 0, 0] ++ tail) =
      (u32le i ++ [1, 0, 0, 0]) ++ tail from by simp]
    exact List.drop_left' (by simp [u32le])
  refine ⟨?_, ?_, ?_, h16⟩
  · rw [h, show ISDT_TAG ++ u32le L ++ u32le i ++ [1, 0, 0, 0] ++ tail =
      (ISDT_TAG ++ u32le L ++ u32le i ++ [1, 0, 0, 0]) ++ tail from by simp]
    exact List.take_left' (by simp [ISDT_TAG, u32le])
  · rw [h4]
    exact rd32_u32le_append _ _ hL
  · rw [h8]
    exact rd32_u32le_append _ _ hi

/-! ## Sample-level bridges for the channel-conversion stage -/

theorem chunkList_cons2 {α : Type} (a b : α) (r : List α) :
    chunkList 2 (a :: b :: r) = [a, b] :: chunkList 2 r := by
  rw [chunkList]
  rfl

theorem chunkList_cons4 {α : Type} (a b c d : α) (r : List α) :
    chunkList 4 (a :: b :: c :: d :: r) = [a, b, c, d] :: chunkList 4 r := by
  rw [chunkList]
  rfl

theorem signedOfWidth_two (a b : Nat) : signedOfWidth 2 [a, b] = decS16 a b := by
  simp only [signedOfWidth, decS16, readLE]
  norm_num

/-- Re-decoding the two's-complement 16-bit bytes of an in-range value gives
the value back. -/
theorem decS16_emod (k : Int) (h1 : -32768 ≤ k) (h2 : k ≤ 32767) :
    decS16 (((k.emod 65536).toNat) % 256) (((k.emod 65536).toNat) / 256 % 256) =
      k := by
  have hmm : k.emod 65536 = k % 65536 := rfl
  rw [hmm]
  simp only [decS16]
  split <;> omega

theorem decS16_range (a b : Nat) (ha : a < 256) (hb : b < 256) :
    -32768 ≤ decS16 a b ∧ decS16 a b ≤ 32767 := by
  simp only [decS16]
  split <;> omega

theorem fbound_int (s : Int) (h1 : -32768 ≤ s) (h2 : s ≤ 32767) :
    fbound 2 ((s : ℚ)) = s := by
  simp only [fbound]
  split_ifs with hgt hlt
  · exfalso
    have hc : ((32767 : Int) : ℚ) < (s : ℚ) := by
      push_cast
      norm_num at hgt
      linarith
    exact absurd (by exact_mod_cast hc : (32767 : Int) < s) (by omega)
  · have hc : ((s : ℚ)) < ((-32767 : Int) : ℚ) := by
      push_cast
      norm_num at hlt
      linarith
    have hs : s < -32767 := by exact_mod_cast hc
    have : s = -32768 := by omega
    subst this
    norm_num
  · exact Int.floor_intCast s

theorem fbound_range (x : ℚ) : -32768 ≤ fbound 2 x ∧ fbound 2 x ≤ 32767 := by
  simp only [fbound]
  split_ifs with hgt hlt
  · norm_num
  · norm_num
  · have hup : x ≤ ((32767 : Int) : ℚ) := by
      push_cast
      norm_num at hgt
      linarith
    have hlo : ((-32767 : Int) : ℚ) ≤ x := by
      push_cast
      norm_num at hlt
      linarith
    have h1 := Int.floor_le_floor hup
    rw [Int.floor_intCast] at h1
    have h2 := Int.le_floor.mpr hlo
    omega

theorem encSample_two (d : Int) :
    encSample 2 d =
      [((d.emod 65536).toNat) % 256, ((d.emod 65536).toNat) / 256 % 256] := rfl

theorem encodeWidth2_bytes_lt : ∀ (m : List Int) (b : Nat),
    b ∈ encodeWidth 2 m → b < 256
  | [], b => by simp [encodeWidth]
  | d :: m, b => by
    intro hb
    have hsplit : encodeWidth 2 (d :: m) = encSample 2 d ++ encodeWidth 2 m := by
      simp [encodeWidth]
    rw [hsplit, List.mem_append, encSample_two] at hb
    rcases hb with h | h
    · rcases List.mem_cons.mp h with h1 | h1
      · subst h1; omega
      · rcases List.mem_cons.mp h1 with h2 | h2
        · subst h2; omega
        · exact absurd h2 (List.not_mem_nil b)
    · exact encodeWidth2_bytes_lt m b h

theorem decode16_encodeWidth : ∀ (m : List Int),
    (∀ x ∈ m, -32768 ≤ x ∧ x ≤ 32767) → decode16 (encodeWidth 2 m) = m
  | [], _ => rfl
  | d :: m, h => by
    have hsplit : encodeWidth 2 (d :: m) =
        ((d.emod 65536).toNat % 256) :: ((d.emod 65536).toNat / 256 % 256) ::
          encodeWidth 2 m := by
      simp [encodeWidth, encSample_two]
    rw [hsplit]
    rw [show decode16 (((d.emod 65536).toNat % 256) ::
        ((d.emod 65536).toNat / 256 % 256) :: encodeWidth 2 m) =
        decS16 ((d.emod 65536).toNat % 256) ((d.emod 65536).toNat / 256 % 256) ::
          decode16 (encodeWidth 2 m) from rfl]
    rw [decS16_emod d (h d (by simp)).1 (h d (by simp)).2]
    rw [decode16_encodeWidth m (fun x hx => h x (by simp [hx]))]

theorem decode16_mem_range : ∀ (frames : List Nat),
    (∀ b ∈ frames, b < 256) →
    ∀ x ∈ decode16 frames, -32768 ≤ x ∧ x ≤ 32767
  | [], _ => by simp [decode16]
  | [a], _ => by simp [decode16]
  | lo :: hi :: r, hb => by
    intro x hx
    rw [show decode16 (lo :: hi :: r) = decS16 lo hi :: decode16 r from rfl] at hx
    rcases List.mem_cons.mp hx with h | h
    · subst h
      exact decS16_range lo hi (hb lo (by simp)) (hb hi (by simp))
    · exact decode16_mem_range r (fun b hbr => hb b (by simp [hbr])) x h

theorem pairCombineQ_range (f : ℚ) : ∀ (l : List Int),
    ∀ x ∈ pairCombineQ f l, -32768 ≤ x ∧ x ≤ 32767
  | [] => by simp [pairCombineQ]
  | [a] => by simp [pairCombineQ]
  | a :: b :: r => by
    intro x hx
    rw [show pairCombineQ f (a :: b :: r) =
        fbound 2 ((a : ℚ) * f + (b : ℚ) * f) :: pairCombineQ f r from rfl] at hx
    rcases List.mem_cons.mp hx with h | h
    · subst h
      exact fbound_range _
    · exact pairCombineQ_range f r x h

/-- With both factors `1/2`, audioop's pair combination is exactly the
floor-average of the two samples. -/
theorem pairCombineQ_half : ∀ (l : List Int),
    (∀ x ∈ l, -32768 ≤ x ∧ x ≤ 32767) →
    pairCombineQ (1 / ((2 : Nat) : ℚ)) l = avgPairsFloor l
  | [], _ => rfl
  | [a], _ => rfl
  | a :: b :: r, h => by
    have ha := h a (by simp)
    have hb := h b (by simp)
    rw [show pairCombineQ (1 / ((2 : Nat) : ℚ)) (a :: b :: r) =
        fbound 2 ((a : ℚ) * (1 / ((2 : Nat) : ℚ)) + (b : ℚ) * (1 / ((2 : Nat) : ℚ))) ::
          pairCombineQ (1 / ((2 : Nat) : ℚ)) r from rfl]
    rw [show avgPairsFloor (a :: b :: r) = (a + b) / 2 :: avgPairsFloor r from rfl]
    have hx : (a : ℚ) * (1 / ((2 : Nat) : ℚ)) + (b : ℚ) * (1 / ((2 : Nat) : ℚ)) =
        ((a + b : Int) : ℚ) / ((2 : Nat) : ℚ) := by
      push_cast
      ring
    have hhead : fbound 2 ((a : ℚ) * (1 / ((2 : Nat) : ℚ)) +
        (b : ℚ) * (1 / ((2 : Nat) : ℚ))) = (a + b) / 2 := by
      rw [hx]
      simp only [fbound]
      split_ifs with hgt hlt
      · exfalso
        have hq : ((65534 : Int) : ℚ) < ((a + b : Int) : ℚ) := by
          push_cast
          norm_num at hgt
          linarith
        have : (65534 : Int) < a + b := by exact_mod_cast hq
        omega
      · have hq : ((a + b : Int) : ℚ) < ((-65534 : Int) : ℚ) := by
          push_cast
          norm_num at hlt
          linarith
        have hab : a + b < -65534 := by exact_mod_cast hq
        have hgoal : -(2 : Int) ^ (8 * 2 - 1) = -32768 := by norm_num
        rw [hgoal]
        omega
      · rw [Rat.floor_intCast_div_natCast]
        norm_num
    rw [hhead, pairCombineQ_half r (fun x hx2 => h x (by simp [hx2]))]

/-- `audioop.tomono` at width 2 combines *consecutive sample pairs*, whatever
the true channel count of the stream. -/
theorem tomono_map_pairs (f : ℚ) : ∀ (frames : List Nat), 4 ∣ frames.length →
    (chunkList 4 frames).map (fun pr =>
      fbound 2 ((signedOfWidth 2 (pr.take 2) : ℚ) * f +
                (signedOfWidth 2 (pr.drop 2) : ℚ) * f)) =
    pairCombineQ f (decode16 frames)
  | [], _ => by
    rw [show chunkList 4 ([] : List Nat) = [] from by rw [chunkList]]
    rfl
  | [a], hd => by
    exfalso
    simp only [List.length_cons, List.length_nil] at hd
    omega
  | [a, b], hd => by
    exfalso
    simp only [List.length_cons, List.length_nil] at hd
    omega
  | [a, b, c], hd => by
    exfalso
    simp only [List.length_cons, List.length_nil] at hd
    omega
  | a :: b :: c :: d :: r, hd => by
    have hr : 4 ∣ r.length := by
      simp only [List.length_cons] at hd
      omega
    simp only [chunkList_cons4, List.map_cons]
    rw [show ([a, b, c, d].take 2) = [a, b] from rfl,
      show ([a, b, c, d].drop 2) = [c, d] from rfl,
      signedOfWidth_two, signedOfWidth_two]
    rw [tomono_map_pairs f r hr]
    rw [show decode16 (a :: b :: c :: d :: r) =
        decS16 a b :: decS16 c d :: decode16 r from rfl]
    rw [show pairCombineQ f (decS16 a b :: decS16 c d :: decode16 r) =
        fbound 2 ((decS16 a b : ℚ) * f + (decS16 c d : ℚ) * f) ::
          pairCombineQ f (decode16 r) from rfl]

theorem tomono_pairs (frames : List Nat) (f : ℚ) (hd : 4 ∣ frames.length) :
    tomono frames 2 f f = some (encodeWidth 2 (pairCombineQ f (decode16 frames))) := by
  unfold tomono
  rw [if_neg (by decide), if_neg (by omega)]
  rw [show (2 * 2 : Nat) = 4 from rfl]
  rw [tomono_map_pairs f frames hd]

/-- `audioop.tostereo` at width 2 with both factors 1 duplicates every
16-bit sample. -/
theorem tostereo_map_dup : ∀ (buf : List Nat), 2 ∣ buf.length →
    (∀ b ∈ buf, b < 256) →
    ((chunkList 2 buf).map (fun bs =>
      encSample 2 (fbound 2 ((signedOfWidth 2 bs : ℚ) * 1)) ++
      encSample 2 (fbound 2 ((signedOfWidth 2 bs : ℚ) * 1)))).flatten =
    encodeWidth 2 (dupEach (decode16 buf))
  | [], _, _ => by
    rw [show chunkList 2 ([] : List Nat) = [] from by rw [chunkList]]
    rfl
  | [a], hd, _ => by
    exfalso
    simp only [List.length_cons, List.length_nil] at hd
    omega
  | a :: b :: r, hd, hb => by
    have hr : 2 ∣ r.length := by
      simp only [List.length_cons] at hd
      omega
    have hbr : ∀ x ∈ r, x < 256 := fun x hx => hb x (by simp [hx])
    have hrange := decS16_range a b (hb a (by simp)) (hb b (by simp))
    simp only [chunkList_cons2, List.map_cons, List.flatten_cons]
    rw [signedOfWidth_two, mul_one, fbound_int _ hrange.1 hrange.2]
    rw [tostereo_map_dup r hr hbr]
    rw [show decode16 (a :: b :: r) = decS16 a b :: decode16 r from rfl]
    have hdup : dupEach (decS16 a b :: decode16 r) =
        decS16 a b :: decS16 a b :: dupEach (decode16 r) := by
      simp [dupEach]
    rw [hdup]
    have henc : encodeWidth 2 (decS16 a b :: decS16 a b :: dupEach (decode16 r)) =
        encSample 2 (decS16 a b) ++
          (encSample 2 (decS16 a b) ++ encodeWidth 2 (dupEach (decode16 r))) := by
      simp [encodeWidth]
    rw [henc, List.append_assoc]

theorem tostereo_dup (buf : List Nat) (hd : 2 ∣ buf.length)
    (hb : ∀ b ∈ buf, b < 256) :
    tostereo buf 2 1 1 = some (encodeWidth 2 (dupEach (decode16 buf))) := by
  unfold tostereo
  rw [if_neg (by decide), if_neg (by omega)]
  rw [tostereo_map_dup buf hd hb]

/-- Like `scanGo_stream`, but the 15-file cap cuts the stream after `k` of
its payloads: the scan emits the first `k` and stops. -/
theorem scanGo_stream_cap : ∀ (ws : List (List Nat)) (k : Nat) (audio : List Nat)
    (pos count i : Nat),
    audio.drop pos = payloadSeq i ws ++ [0, 0] →
    (∀ w ∈ ws, GoodPayload w) →
    1 ≤ i → 1 ≤ k → k ≤ ws.length → i + k ≤ 15 → count + k = 15 →
    scanGo audio pos count = (ws.take k, false)
  | [], k, audio, pos, count, i, _, _, _, hk1, hkle, _, _ => by
    exfalso
    simp only [List.length_nil] at hkle
    omega
  | w :: ws2, k, audio, pos, count, i, hdrop, hgps, hi1, hk1, hkle, hik, hcount => by
    have hgw : GoodPayload w := hgps w (by simp)
    have hne : i ≠ 0 := by omega
    have hseq : payloadSeq i (w :: ws2) =
        isdtBlock i w.length ++ (w ++ payloadSeq (i + 1) ws2) := by
      rw [payloadSeq, if_neg hne]
      simp
    rw [hseq] at hdrop
    rw [show (isdtBlock i w.length ++ (w ++ payloadSeq (i + 1) ws2)) ++ [0, 0] =
      isdtBlock i w.length ++ ((w ++ (payloadSeq (i + 1) ws2 ++ [0, 0]))) from by
      simp] at hdrop
    obtain ⟨hskip, hd18⟩ := scanGo_block audio pos count i w
      (payloadSeq (i + 1) ws2 ++ [0, 0]) hdrop hgw hi1 (by omega)
    obtain ⟨hr4, hsz, h8, htake, hdnext⟩ :=
      scanGo_payload_facts audio (pos + 18) w _ hd18 hgw
    rw [hskip]
    by_cases hklast : k = 1
    · subst hklast
      rw [scanGo_emit_last audio (pos + 18) count hr4 h8 (by omega)]
      rw [show rd32 (audio.drop (pos + 18 + 4)) + 8 = w.length from hsz, htake]
      rfl
    · obtain ⟨k2, rfl⟩ : ∃ k2, k = k2 + 1 := ⟨k - 1, by omega⟩
      have hrec := scanGo_stream_cap ws2 k2 audio (pos + 18 + w.length)
        (count + 1) (i + 1) hdnext (fun x hx => hgps x (by simp [hx]))
        (by omega) (by omega)
        (by simp only [List.length_cons] at hkle; omega)
        (by omega) (by omega)
      rw [scanGo_emit audio (pos + 18) count hr4 h8 (by omega),
        show rd32 (audio.drop (pos + 18 + 4)) + 8 = w.length from hsz, htake, hrec]
      rfl
  termination_by ws => ws.length

/-- A block whose size field spells `RIFF` (payload length + 18 =
0x46464952) derails the scanner: walking the block finds the spurious
signature at block offset 6, reads the index field as a size, emits the
9-byte junk span, resumes three bytes before the payload, and then emits the
payload itself — two files for one asset. -/
theorem scanGo_poisoned_block (audio : List Nat) (pos count : Nat) (w rest : List Nat)
    (hdrop : audio.drop pos = isdtBlock 1 w.length ++ (w ++ rest))
    (hpoison : u32le (w.length + 18) = riffTag)
    (hr4 : w.take 4 = riffTag) (h8w : 8 ≤ w.length)
    (hsz : rd32 (w.drop 4) + 8 = w.length)
    (h2r : 2 ≤ rest.length)
    (hcount : count + 2 < 15) :
    scanGo audio pos count =
      (junkBuf :: w :: (scanGo audio (pos + 18 + w.length) (count + 2)).1,
        (scanGo audio (pos + 18 + w.length) (count + 2)).2) ∧
    audio.drop (pos + 18 + w.length) = rest := by
  have hw : w = 82 :: 73 :: 70 :: 70 :: w.drop 4 := by
    have h4 := List.take_append_drop 4 w
    rw [hr4] at h4
    rw [← h4]
    rfl
  have hchain : audio.drop pos =
      0 :: 0 :: 73 :: 83 :: 68 :: 84 :: 82 :: 73 :: 70 :: 70 ::
      1 :: 0 :: 0 :: 0 :: 1 :: 0 :: 0 :: 0 ::
      (82 :: 73 :: 70 :: 70 :: (w.drop 4 ++ rest)) := by
    rw [hdrop]
    rw [show isdtBlock 1 w.length = [0, 0] ++ ISDT_TAG ++ u32le (w.length + 18) ++
      u32le 1 ++ [1, 0, 0, 0] from rfl]
    rw [hpoison]
    rw [show w ++ rest = 82 :: 73 :: 70 :: 70 :: (w.drop 4 ++ rest) from by
      rw [hw]; simp]
    simp [ISDT_TAG, u32le, riffTag]
  have hlen : audio.length = pos + 18 + w.length + rest.length := by
    have h1 : (audio.drop pos).length = audio.length - pos := by simp
    rw [hdrop] at h1
    simp only [List.length_append, isdtBlock_length] at h1
    omega
  have hd18 : audio.drop (pos + 18) = w ++ rest := by
    rw [← List.drop_drop, hchain]
    rw [show w ++ rest = 82 :: 73 :: 70 :: 70 :: (w.drop 4 ++ rest) from by
      rw [hw]; simp]
    rfl
  have step1 : ∀ k : Nat, k < 6 →
      scanGo audio (pos + k) count = scanGo audio (pos + k + 1) count := by
    intro k hk
    apply scanGo_skip audio (pos + k) count _ (by omega)
    have hdk : audio.drop (pos + k) = (audio.drop pos).drop k := by
      rw [List.drop_drop]
    interval_cases k <;>
      (rw [hdk, hchain]
       first
        | decide
        | (intro hEq
           simp only [List.take, riffTag, List.cons.injEq] at hEq
           omega))
  have go1 : scanGo audio pos count = scanGo audio (pos + 6) count := by
    have go : ∀ k : Nat, k ≤ 6 →
        scanGo audio (pos + 0) count = scanGo audio (pos + k) count := by
      intro k
      induction k with
      | zero => intro _; rfl
      | succ k2 ih =>
        intro hk2
        rw [ih (by omega), step1 k2 (by omega), Nat.add_assoc]
    have h0 := go 6 (by omega)
    rw [Nat.add_zero] at h0
    exact h0
  have hd6 : audio.drop (pos + 6) = 82 :: 73 :: 70 :: 70 :: 1 :: 0 :: 0 :: 0 ::
      (1 :: 0 :: 0 :: 0 :: (82 :: 73 :: 70 :: 70 :: (w.drop 4 ++ rest))) := by
    rw [← List.drop_drop, hchain]
    rfl
  have hr6 : (audio.drop (pos + 6)).take 4 = riffTag := by
    rw [hd6]
    rfl
  have hsize6 : rd32 (audio.drop (pos + 6 + 4)) = 1 := by
    have hd10 : audio.drop (pos + 6 + 4) =
        1 :: 0 :: 0 :: 0 :: (1 :: 0 :: 0 :: 0 ::
          (82 :: 73 :: 70 :: 70 :: (w.drop 4 ++ rest))) := by
      rw [show pos + 6 + 4 = pos + 10 from by omega, ← List.drop_drop, hchain]
      rfl
    rw [hd10]
    rfl
  have step2 : ∀ k : Nat, 15 ≤ k → k < 18 →
      scanGo audio (pos + k) (count + 1) = scanGo audio (pos + k + 1) (count + 1) := by
    intro k hk15 hk18
    apply scanGo_skip audio (pos + k) (count + 1) _ (by omega)
    have hdk : audio.drop (pos + k) = (audio.drop pos).drop k := by
      rw [List.drop_drop]
    interval_cases k <;>
      (rw [hdk, hchain]
       first
        | decide
        | (intro hEq
           simp only [List.take, riffTag, List.cons.injEq] at hEq
           omega))
  have go2 : scanGo audio (pos + 15) (count + 1) = scanGo audio (pos + 18) (count + 1) := by
    have e1 := step2 15 (by omega) (by omega)
    have e2 := step2 16 (by omega) (by omega)
    have e3 := step2 17 (by omega) (by omega)
    rw [show pos + 15 + 1 = pos + 16 from by omega] at e1
    rw [show pos + 16 + 1 = pos + 17 from by omega] at e2
    rw [show pos + 17 + 1 = pos + 18 from by omega] at e3
    exact e1.trans (e2.trans e3)
  have hr18 : (audio.drop (pos + 18)).take 4 = riffTag := by
    rw [hd18, List.take_append_of_le_length (by omega), hr4]
  have hsz18 : rd32 (audio.drop (pos + 18 + 4)) + 8 = w.length := by
    have hd4 : audio.drop (pos + 18 + 4) = w.drop 4 ++ rest := by
      rw [← List.drop_drop, hd18, List.drop_append_of_le_length (by omega)]
    rw [hd4]
    have hrr : rd32 (w.drop 4 ++ rest) = rd32 (w.drop 4) := by
      unfold rd32
      rw [List.take_append_of_le_length (by simp; omega)]
    rw [hrr, hsz]
  have htake18 : (audio.drop (pos + 18)).take w.length = w := by
    rw [hd18, List.take_left]
  have hdnext : audio.drop (pos + 18 + w.length) = rest := by
    rw [← List.drop_drop, hd18, List.drop_left]
  refine ⟨?_, hdnext⟩
  rw [go1, scanGo_emit audio (pos + 6) count hr6 (by omega) (by omega), hsize6]
  rw [show (audio.drop (pos + 6)).take (1 + 8) = junkBuf from by
    rw [hd6]; rfl]
  rw [show pos + 6 + (1 + 8) = pos + 15 from by omega]
  rw [go2, scanGo_emit audio (pos + 18) (count + 1) hr18 (by omega) (by omega)]
  rw [show rd32 (audio.drop (pos + 18 + 4)) + 8 = w.length from hsz18, htake18]

/-- Full scan of a stream whose second payload's block is poisoned: the
first payload, the junk span, the big payload, and then only twelve of the
remaining thirteen payloads before the 15-file cap. -/
theorem extract_poisoned_trace (audio : List Nat) (w0 whuge : List Nat)
    (r13 : List (List Nat))
    (haudio : audio = w0 ++ (isdtBlock 1 whuge.length ++
      (whuge ++ (payloadSeq 2 r13 ++ [0, 0]))))
    (hgp0 : GoodPayload w0)
    (hpoison : u32le (whuge.length + 18) = riffTag)
    (hr4h : whuge.take 4 = riffTag) (h8h : 8 ≤ whuge.length)
    (hszh : rd32 (whuge.drop 4) + 8 = whuge.length)
    (hgps : ∀ w ∈ r13, GoodPayload w) (hr13 : r13.length = 13) :
    scanGo audio 0 0 = (w0 :: junkBuf :: whuge :: r13.take 12, false) := by
  have hdrop0 : audio.drop 0 = w0 ++ (isdtBlock 1 whuge.length ++
      (whuge ++ (payloadSeq 2 r13 ++ [0, 0]))) := by
    simpa using haudio
  obtain ⟨hr4, hsz, h8, htake, hdnext⟩ :=
    scanGo_payload_facts audio 0 w0 _ hdrop0 hgp0
  obtain ⟨hstep, hdnext2⟩ := scanGo_poisoned_block audio (0 + w0.length) (0 + 1)
    whuge (payloadSeq 2 r13 ++ [0, 0]) hdnext hpoison hr4h h8h hszh
    (by simp) (by omega)
  have hstream := scanGo_stream_cap r13 12 audio (0 + w0.length + 18 + whuge.length)
    (0 + 1 + 2) 2 hdnext2 hgps (by omega) (by omega) (by omega) (by omega) (by omega)
  rw [scanGo_emit audio 0 0 hr4 h8 (by omega),
    show rd32 (audio.drop (0 + 4)) + 8 = w0.length from hsz, htake, hstep, hstream]

/-! ## Claim theorems -/

/-- C6 counterexample: the claim says bytes 17–18 hold
`round(cents * 256 / 100)`; at `cents = 1` the code stores
`int(2.56) = 2` but `round(2.56) = 3`, so the stored bytes differ from the
claimed encoding. -/
theorem C6_counterexample :
    ((get_param_suffix 100 1 0 0).drop 17).take 2 ≠
      u16le (((pitchUnitsClaim 1).emod 65536).toNat) := by
  have h3 : pitchUnitsClaim 1 = 3 := by
    unfold pitchUnitsClaim
    rw [round_eq]
    apply Int.floor_eq_iff.mpr
    constructor <;> norm_num
  rw [h3]
  decide

/-- C6 (amended): for `-1200 ≤ cents ≤ 1200`, the 24-byte parameter record
stores at bytes 17–18 the signed 16-bit little-endian encoding of
`int(cents * 256 / 100)` — the quotient truncated towards zero
(`Int.tdiv`), not rounded to nearest. -/
theorem C6_pitch_bytes (volume pan fx_send cents : Int)
    (h1 : -1200 ≤ cents) (h2 : cents ≤ 1200) :
    ((get_param_suffix volume cents pan fx_send).drop 17).take 2 =
      u16le (((Int.tdiv (cents * 256) 100).emod 65536).toNat) ∧
    decode16 (((get_param_suffix volume cents pan fx_send).drop 17).take 2) =
      [Int.tdiv (cents * 256) 100] := by
  refine ⟨rfl, ?_⟩
  have habs : (Int.tdiv (cents * 256) 100).natAbs ≤ 3072 := by
    rw [Int.natAbs_tdiv]
    have hmul : (cents * 256).natAbs = cents.natAbs * 256 := by
      rw [Int.natAbs_mul]
      rfl
    rw [hmul]
    have hc : cents.natAbs ≤ 1200 := by omega
    calc (cents.natAbs * 256).div (Int.natAbs 100)
        ≤ (1200 * 256).div (Int.natAbs 100) := Nat.div_le_div_right (by omega)
      _ = 3072 := by norm_num
  show [decS16 ((((Int.tdiv (cents * 256) 100).emod 65536).toNat) % 256)
    ((((Int.tdiv (cents * 256) 100).emod 65536).toNat) / 256 % 256)] = _
  have hval : decS16 ((((Int.tdiv (cents * 256) 100).emod 65536).toNat) % 256)
      ((((Int.tdiv (cents * 256) 100).emod 65536).toNat) / 256 % 256) =
      Int.tdiv (cents * 256) 100 := by
    generalize hg : Int.tdiv (cents * 256) 100 = k at habs ⊢
    have hmm : k.emod 65536 = k % 65536 := rfl
    rw [hmm]
    simp only [decS16]
    split <;> omega
  rw [hval]

/-- C6 amended-theorem witness at `cents = -100`: the stored bytes decode to
`-256` (= `int(-100*256/100)`). -/
theorem C6_pitch_bytes_witness :
    ((get_param_suffix 100 (-100) 0 0).drop 17).take 2 =
      u16le (((Int.tdiv ((-100) * 256) 100).emod 65536).toNat) ∧
    decode16 (((get_param_suffix 100 (-100) 0 0).drop 17).take 2) =
      [Int.tdiv ((-100) * 256) 100] :=
  C6_pitch_bytes 100 0 0 (-100) (by decide) (by decide)

/-- C8: entry `i`'s path region in the KTDT table.  A path longer than 256
bytes is written as exactly 256 bytes — its first 255 bytes plus a null
terminator (`build_ktdt` raises no error: it is a total function of its
inputs); a path of at most 256 bytes is written unchanged. -/
theorem C8_path_truncation (paths : List (List Nat)) (flen : Nat)
    (params : List SampleParams) (i : Nat) (hi : i < 15) :
    ((paths.getD i []).length > 256 →
      ((build_ktdt paths flen params).drop (i * 280)).take 256 =
        (paths.getD i []).take 255 ++ [0] ∧
      ((paths.getD i []).take 255 ++ [0]).length = 256) ∧
    ((paths.getD i []).length ≤ 256 →
      ((build_ktdt paths flen params).drop (i * 280)).take (paths.getD i []).length =
        paths.getD i []) := by
  have hs := build_ktdt_path_slice paths flen params i hi
  constructor
  · intro hgt
    rw [if_pos hgt] at hs
    have hlen : ((paths.getD i []).take 255 ++ [0]).length = 256 := by
      rw [List.length_append, List.length_take, List.length_singleton]
      omega
    rw [hlen] at hs
    exact ⟨hs, hlen⟩
  · intro hle
    rw [if_neg (by omega)] at hs
    exact hs

/-- C8 witness: a 300-byte path in slot 0 is stored as 255 bytes plus a
terminator. -/
theorem C8_path_truncation_witness :
    ((([List.replicate 300 65] : List (List Nat)).getD 0 []).length > 256 →
      ((build_ktdt [List.replicate 300 65] 0 []).drop (0 * 280)).take 256 =
        (([List.replicate 300 65] : List (List Nat)).getD 0 []).take 255 ++ [0] ∧
      ((([List.replicate 300 65] : List (List Nat)).getD 0 []).take 255 ++ [0]).length =
        256) ∧
    ((([List.replicate 300 65] : List (List Nat)).getD 0 []).length ≤ 256 →
      ((build_ktdt [List.replicate 300 65] 0 []).drop (0 * 280)).take
          (([List.replicate 300 65] : List (List Nat)).getD 0 []).length =
        ([List.replicate 300 65] : List (List Nat)).getD 0 []) :=
  C8_path_truncation [List.replicate 300 65] 0 [] 0 (by omega)

/-- C9: at every signature match with an intact size field, the scanner
emits `audio[pos : pos + L + 8]` as the next extracted file; when the span
fits that is exactly `L + 8` bytes, and when the span would overrun the
buffer the emitted file is shorter than `L + 8` (not a full asset) while the
scan simply runs off the end and stops; a match whose own size field is cut
off raises instead (no file emitted for it). -/
theorem C9_match_span (audio : List Nat) (pos count : Nat)
    (hpos : pos < audio.length)
    (hR : (audio.drop pos).take 4 = riffTag) :
    (pos + 8 ≤ audio.length →
      (scanGo audio pos count).1 =
        (audio.drop pos).take (rd32 (audio.drop (pos + 4)) + 8) ::
          (if count + 1 ≥ 15 then []
           else (scanGo audio (pos + (rd32 (audio.drop (pos + 4)) + 8)) (count + 1)).1) ∧
      (pos + (rd32 (audio.drop (pos + 4)) + 8) ≤ audio.length →
        ((audio.drop pos).take (rd32 (audio.drop (pos + 4)) + 8)).length =
          rd32 (audio.drop (pos + 4)) + 8) ∧
      (audio.length < pos + (rd32 (audio.drop (pos + 4)) + 8) →
        ((audio.drop pos).take (rd32 (audio.drop (pos + 4)) + 8)).length <
          rd32 (audio.drop (pos + 4)) + 8 ∧
        ∀ c2, scanGo audio (pos + (rd32 (audio.drop (pos + 4)) + 8)) c2 = ([], false))) ∧
    (audio.length < pos + 8 → scanGo audio pos count = ([], true)) := by
  constructor
  · intro h8
    refine ⟨?_, ?_, ?_⟩
    · by_cases hc : count + 1 ≥ 15
      · rw [scanGo_emit_last audio pos count hR h8 hc, if_pos hc]
      · rw [scanGo_emit audio pos count hR h8 (by omega), if_neg hc]
    · intro hfit
      rw [List.length_take, List.length_drop]
      omega
    · intro hover
      constructor
      · rw [List.length_take, List.length_drop]
        omega
      · intro c2
        rw [scanGo, dif_neg (by omega)]
  · intro hshort
    rw [scanGo, dif_pos (by omega), if_pos hR, dif_neg (by omega)]

/-- C9 witness on a 10-byte buffer holding one well-formed sample. -/
theorem C9_match_span_witness :
    ((0 : Nat) + 8 ≤ (riffTag ++ u32le 2 ++ [9, 9]).length →
      (scanGo (riffTag ++ u32le 2 ++ [9, 9]) 0 0).1 =
        ((riffTag ++ u32le 2 ++ [9, 9]).drop 0).take
            (rd32 ((riffTag ++ u32le 2 ++ [9, 9]).drop (0 + 4)) + 8) ::
          (if (0 : Nat) + 1 ≥ 15 then []
           else (scanGo (riffTag ++ u32le 2 ++ [9, 9])
              (0 + (rd32 ((riffTag ++ u32le 2 ++ [9, 9]).drop (0 + 4)) + 8)) (0 + 1)).1) ∧
      ((0 : Nat) + (rd32 ((riffTag ++ u32le 2 ++ [9, 9]).drop (0 + 4)) + 8) ≤
          (riffTag ++ u32le 2 ++ [9, 9]).length →
        (((riffTag ++ u32le 2 ++ [9, 9]).drop 0).take
            (rd32 ((riffTag ++ u32le 2 ++ [9, 9]).drop (0 + 4)) + 8)).length =
          rd32 ((riffTag ++ u32le 2 ++ [9, 9]).drop (0 + 4)) + 8) ∧
      ((riffTag ++ u32le 2 ++ [9, 9]).length <
          (0 : Nat) + (rd32 ((riffTag ++ u32le 2 ++ [9, 9]).drop (0 + 4)) + 8) →
        (((riffTag ++ u32le 2 ++ [9, 9]).drop 0).take
            (rd32 ((riffTag ++ u32le 2 ++ [9, 9]).drop (0 + 4)) + 8)).length <
          rd32 ((riffTag ++ u32le 2 ++ [9, 9]).drop (0 + 4)) + 8 ∧
        ∀ c2, scanGo (riffTag ++ u32le 2 ++ [9, 9])
            (0 + (rd32 ((riffTag ++ u32le 2 ++ [9, 9]).drop (0 + 4)) + 8)) c2 =
          ([], false))) ∧
    ((riffTag ++ u32le 2 ++ [9, 9]).length < (0 : Nat) + 8 →
      scanGo (riffTag ++ u32le 2 ++ [9, 9]) 0 0 = ([], true)) :=
  C9_match_span (riffTag ++ u32le 2 ++ [9, 9]) 0 0 (by decide) (by decide)

/-- C10 counterexample: a buffer whose audio region is exactly `b"RIFF"`
makes the scanner read a size field that is not there — the run raises
`struct.error` (crash flag `true`), so extraction does *not* return normally
on every input. -/
theorem C10_counterexample :
    (extract_wavs (List.replicate 0x10A4 0 ++ [82, 73, 70, 70])).2 = true := by
  have hdrop : (List.replicate 0x10A4 0 ++ [82, 73, 70, 70]).drop 0x10A4 =
      [82, 73, 70, 70] := List.drop_left' (by rw [List.length_replicate])
  unfold extract_wavs
  rw [hdrop, scanGo, dif_pos (by decide), if_pos (by decide), dif_neg (by decide)]

/-- C10 (amended): the extraction scan always terminates (`extract_wavs` is
total); it returns zero assets without raising when the buffer is no longer
than the fixed leading region; every non-signature position advances one
byte, and the scan stops when fewer than 9 bytes remain past such a
position; and the run raises no exception provided no signature match
occurs with fewer than 8 bytes remaining from the match position. -/
theorem C10_scan_safety (data : List Nat)
    (hsafe : ∀ p, p < (data.drop 0x10A4).length →
      ((data.drop 0x10A4).drop p).take 4 = riffTag →
      p + 8 ≤ (data.drop 0x10A4).length) :
    (extract_wavs data).2 = false ∧
    (data.length ≤ 0x10A4 → extract_wavs data = ([], false)) ∧
    (∀ audio pos count, pos < (audio : List Nat).length →
      (audio.drop pos).take 4 ≠ riffTag → pos + 9 ≤ audio.length →
      scanGo audio pos count = scanGo audio (pos + 1) count) ∧
    (∀ audio pos count, pos < (audio : List Nat).length →
      (audio.drop pos).take 4 ≠ riffTag → audio.length < pos + 9 →
      scanGo audio pos count = ([], false)) := by
  refine ⟨?_, ?_, ?_, ?_⟩
  · exact scanGo_no_crash (data.drop 0x10A4) 0 0 hsafe
  · intro hshort
    unfold extract_wavs
    rw [List.drop_of_length_le (by omega), scanGo, dif_neg (by decide)]
  · intro audio pos count h1 h2 h3
    exact scanGo_skip audio pos count h2 h3
  · intro audio pos count h1 h2 h3
    rw [scanGo, dif_pos h1, if_neg h2, if_pos (by omega)]

/-- C10 amended-theorem witness on the empty buffer. -/
theorem C10_scan_safety_witness :
    (extract_wavs []).2 = false ∧
    (([] : List Nat).length ≤ 0x10A4 → extract_wavs [] = ([], false)) ∧
    (∀ audio pos count, pos < (audio : List Nat).length →
      (audio.drop pos).take 4 ≠ riffTag → pos + 9 ≤ audio.length →
      scanGo audio pos count = scanGo audio (pos + 1) count) ∧
    (∀ audio pos count, pos < (audio : List Nat).length →
      (audio.drop pos).take 4 ≠ riffTag → audio.length < pos + 9 →
      scanGo audio pos count = ([], false)) :=
  C10_scan_safety [] (by
    intro p hp
    simp at hp)

/-- C5 counterexample: on a 3-channel buffer of 2 frames (12 bytes), the
claimed per-frame equal-weight averaging would give 2 mono samples (4
bytes), but the code (`audioop.tomono`, which pairs *consecutive samples*
regardless of channel count) emits 3 samples (6 bytes). -/
theorem C5_counterexample :
    (convertChannels 3 1 c5Frames 2).map List.length ≠
      some (2 * (claimEqualWeightMono 3 (decode16 c5Frames)).length) := by
  have h1 : convertChannels 3 1 c5Frames 2 =
      tomono c5Frames 2 (1 / ((3 : Nat) : ℚ)) (1 / ((3 : Nat) : ℚ)) := rfl
  have hl : (decode16 c5Frames).length = 6 := rfl
  have h2 : (claimEqualWeightMono 3 (decode16 c5Frames)).length = 2 := by
    unfold claimEqualWeightMono
    rw [List.length_map, chunkList_length_dvd 3 _ (by omega) (by rw [hl]; decide), hl]
  rw [h1, h2]
  cases hf : tomono c5Frames 2 (1 / ((3 : Nat) : ℚ)) (1 / ((3 : Nat) : ℚ)) with
  | none => simp
  | some g =>
    have h3 := (tomono_length hf).1
    have h4 : c5Frames.length = 12 := rfl
    rw [h4] at h3
    intro hc
    rw [Option.map_some'] at hc
    have h5 := Option.some.inj hc
    omega

/-- C5 (amended): channel conversion at 16-bit width.  Mono→stereo
duplicates each sample into both channels, and stereo→mono stores the floor
of the equal-weight average of each frame's two channels (the `0.5` factors
are exact in CPython's double arithmetic, so these two byte-level equalities
are faithful).  For `nch ≥ 3` channels the code does *not* average per
frame: `audioop.tomono` combines *consecutive sample pairs* whatever the
channel count, so the mono mixdown has one sample per input sample pair —
half the input sample count, not one per frame — and the `nch ≥ 3`→stereo
path is exactly that pair mixdown followed by duplication of its samples
into both channels (never a direct matrix mix).  Per-pair sample values at
the non-dyadic factor `1/nch` are computed in doubles and are not asserted
here. -/
theorem C5_channel_conversion (nch : Nat) (frames : List Nat)
    (hb : ∀ b ∈ frames, b < 256) :
    (2 ∣ frames.length →
      convertChannels 1 2 frames 2 =
        some (encodeWidth 2 (dupEach (decode16 frames)))) ∧
    (4 ∣ frames.length →
      convertChannels 2 1 frames 2 =
        some (encodeWidth 2 (avgPairsFloor (decode16 frames))) ∧
      (3 ≤ nch →
        ∃ mono, convertChannels nch 1 frames 2 = some mono ∧
          mono.length = frames.length / 2 ∧
          convertChannels nch 2 frames 2 =
            some (encodeWidth 2 (dupEach (decode16 mono))))) := by
  refine ⟨?_, ?_⟩
  · intro hd2
    unfold convertChannels
    rw [if_pos (by decide), if_neg (by decide), if_pos (by decide)]
    exact tostereo_dup frames hd2 hb
  · intro hd4
    refine ⟨?_, fun hn => ?_⟩
    · unfold convertChannels
      rw [if_pos (by decide), if_pos rfl]
      rw [tomono_pairs frames _ hd4]
      rw [pairCombineQ_half (decode16 frames) (decode16_mem_range frames hb)]
    · have htm := tomono_pairs frames (1 / (nch : ℚ)) hd4
      refine ⟨encodeWidth 2 (pairCombineQ (1 / (nch : ℚ)) (decode16 frames)),
        ?_, ?_, ?_⟩
      · unfold convertChannels
        rw [if_pos (by omega), if_pos rfl]
        exact htm
      · have hlen := (tomono_length htm).1
        omega
      · unfold convertChannels
        rw [if_pos (by omega), if_neg (by decide), if_neg (by omega)]
        rw [htm, Option.some_bind]
        exact tostereo_dup (encodeWidth 2 (pairCombineQ (1 / (nch : ℚ)) (decode16 frames)))
          (by rw [encodeWidth_length]; omega)
          (fun b hbb => encodeWidth2_bytes_lt _ b hbb)

/-- C5 amended-theorem witness at `nch = 3` on the 12-byte vector. -/
theorem C5_channel_conversion_witness :
    (2 ∣ c5Frames.length →
      convertChannels 1 2 c5Frames 2 =
        some (encodeWidth 2 (dupEach (decode16 c5Frames)))) ∧
    (4 ∣ c5Frames.length →
      convertChannels 2 1 c5Frames 2 =
        some (encodeWidth 2 (avgPairsFloor (decode16 c5Frames))) ∧
      (3 ≤ 3 →
        ∃ mono, convertChannels 3 1 c5Frames 2 = some mono ∧
          mono.length = c5Frames.length / 2 ∧
          convertChannels 3 2 c5Frames 2 =
            some (encodeWidth 2 (dupEach (decode16 mono))))) :=
  C5_channel_conversion 3 c5Frames (by decide)

/-- C7: normalization is byte-for-byte idempotent on valid PCM inputs
(inputs whose data chunk holds whole frames) for target channel counts 1
and 2. -/
theorem C7_idempotent (x y : List Nat) (c : Nat) (htc : c = 1 ∨ c = 2)
    (hvalid : ∀ a, wave_read x = some a → (a.nch * a.sw) ∣ a.frames.length)
    (h : to_pcm16_48k x c = some y) :
    to_pcm16_48k y c = some y := by
  obtain ⟨audio, rfl, hb, hdvd⟩ := to_pcm16_48k_spec h
  exact to_pcm16_48k_buildFinal_self c audio htc hb (hdvd htc hvalid)

/-- C7 witness: an already-normalized 4-byte-audio container maps to itself,
so normalizing it again reproduces it. -/
theorem C7_idempotent_witness :
    to_pcm16_48k (buildFinal 1 [1, 0, 2, 0]) 1 = some (buildFinal 1 [1, 0, 2, 0]) :=
  C7_idempotent (buildFinal 1 [1, 0, 2, 0]) (buildFinal 1 [1, 0, 2, 0]) 1 (Or.inl rfl)
    (fun a ha => by
      rw [wave_read_buildFinal 1 [1, 0, 2, 0] (Or.inl rfl) (by norm_num)] at ha
      have h2 := Option.some.inj ha
      subst h2
      decide)
    (to_pcm16_48k_buildFinal_self 1 [1, 0, 2, 0] (Or.inl rfl) (by norm_num)
      (by norm_num))

/-- C4: every normalizer output consists, in order, of the 12-byte RIFF
header (`RIFF` tag + total-length field + `WAVE` form tag), the 24-byte fmt
sub-block, the cue sub-block, the LIST (label/tempo) sub-block, the data
tag and size, and the audio bytes; the declared RIFF total-length field
equals the exact byte count of everything following it. -/
theorem C4_riff_layout (x out : List Nat) (tc : Nat)
    (h : to_pcm16_48k x tc = some out) :
    ∃ audio,
      out = riffTag ++ (u32le (110 + audio.length) ++
        (waveTag ++ fmtChunk24 tc ++ CUE_CHUNK ++ LIST_CHUNK ++ dataTagB ++
          u32le audio.length ++ audio)) ∧
      (waveTag ++ fmtChunk24 tc ++ CUE_CHUNK ++ LIST_CHUNK ++ dataTagB ++
        u32le audio.length ++ audio).length = 110 + audio.length ∧
      rd32 (out.drop 4) = 110 + audio.length := by
  obtain ⟨audio, rfl, hb, _⟩ := to_pcm16_48k_spec h
  have hlen := buildFinal_length tc audio
  have hbody : (waveTag ++ fmtChunk24 tc ++ CUE_CHUNK ++ LIST_CHUNK ++ dataTagB ++
      u32le audio.length ++ audio).length = 110 + audio.length := by
    simp [waveTag, dataTagB, u32le, fmtChunk24_length,
      show CUE_CHUNK.length = 36 from rfl, show LIST_CHUNK.length = 38 from rfl]
    omega
  refine ⟨audio, buildFinal_assoc tc audio, hbody, ?_⟩
  rw [buildFinal_assoc]
  rw [List.drop_left' (show riffTag.length = 4 from rfl)]
  exact rd32_u32le_append _ _ (by omega)

/-- C4 witness on the canonical 4-byte-audio container. -/
theorem C4_riff_layout_witness :
    ∃ audio,
      buildFinal 1 [1, 0, 2, 0] = riffTag ++ (u32le (110 + audio.length) ++
        (waveTag ++ fmtChunk24 1 ++ CUE_CHUNK ++ LIST_CHUNK ++ dataTagB ++
          u32le audio.length ++ audio)) ∧
      (waveTag ++ fmtChunk24 1 ++ CUE_CHUNK ++ LIST_CHUNK ++ dataTagB ++
        u32le audio.length ++ audio).length = 110 + audio.length ∧
      rd32 ((buildFinal 1 [1, 0, 2, 0]).drop 4) = 110 + audio.length :=
  C4_riff_layout (buildFinal 1 [1, 0, 2, 0]) (buildFinal 1 [1, 0, 2, 0]) 1
    (to_pcm16_48k_buildFinal_self 1 [1, 0, 2, 0] (Or.inl rfl) (by norm_num)
      (by norm_num))

/-- C3: for `1 ≤ k < 15` inputs, pack emits exactly 15 payloads — the
inputs' normalized forms followed by `15 - k` byte-identical copies of the
first smallest-by-length normalized input (the minimum computed once on the
converted list), each padded name suffixed with its resulting 1-based
position — and a slot table of the full fixed size. -/
theorem C3_pad_to_15 (assets : List (List Nat)) (names : List String)
    (title : String) (tc : Nat) (params : List SampleParams)
    (hk1 : 1 ≤ assets.length) (hk15 : assets.length < 15)
    (hn : names.length = assets.length)
    (hok : ∀ a ∈ assets, (to_pcm16_48k a tc).isSome) :
    ∃ converted m,
      assets.mapM (fun a => to_pcm16_48k a tc) = some converted ∧
      converted.length = assets.length ∧
      argminLen converted = some m ∧
      m < converted.length ∧
      (∀ j, j < converted.length →
        (converted.getD m []).length ≤ (converted.getD j []).length) ∧
      (∀ j, j < m → (converted.getD m []).length < (converted.getD j []).length) ∧
      pack assets names title tc params =
        some (write_stk
          (build_ktdt
            (make_paths title (names ++ (List.range (15 - converted.length)).map
              (fun j => names.getD m "" ++ "_pad" ++
                toString (converted.length + 1 + j))))
            (((converted ++ List.replicate (15 - converted.length)
                (converted.getD m [])).headD []).length)
            params)
          (converted ++ List.replicate (15 - converted.length)
            (converted.getD m []))) ∧
      (converted ++ List.replicate (15 - converted.length)
        (converted.getD m [])).length = 15 ∧
      (build_ktdt
          (make_paths title (names ++ (List.range (15 - converted.length)).map
            (fun j => names.getD m "" ++ "_pad" ++
              toString (converted.length + 1 + j))))
          (((converted ++ List.replicate (15 - converted.length)
              (converted.getD m [])).headD []).length)
          params).length = KTDT_SIZE ∧
      (∀ i, converted.length ≤ i → i < 15 →
        (converted ++ List.replicate (15 - converted.length)
          (converted.getD m [])).getD i [] = converted.getD m []) := by
  obtain ⟨converted, hmap, hclen, _⟩ := mapM_option_sound _ assets hok
  have hnames : names.take 15 = names := List.take_of_length_le (by omega)
  obtain ⟨m, hm, hmlt, hpick, hmin, hstrict⟩ :=
    pick_samples_pad_spec converted names (by omega) (by omega) (by omega)
  refine ⟨converted, m, hmap, hclen, hm, hmlt, hmin, hstrict, ?_, ?_, ?_, ?_⟩
  · have h2 := pack_eq assets names title tc params converted
      (converted ++ List.replicate (15 - converted.length) (converted.getD m []),
        names ++ (List.range (15 - converted.length)).map
          (fun j => names.getD m "" ++ "_pad" ++
            toString (converted.length + 1 + j)))
      (by omega) hmap (by rw [hnames]; exact hpick)
    exact h2
  · simp
    omega
  · exact build_ktdt_length _ _ _
  · intro i hi1 hi2
    rw [List.getD_append_right _ _ _ _ hi1]
    exact getD_replicate _ _ _ _ (by omega)

/-- C3 witness: a single asset padded out to fifteen payloads. -/
theorem C3_pad_to_15_witness :
    ∃ converted m,
      ([buildFinal 1 []] : List (List Nat)).mapM (fun a => to_pcm16_48k a 1) =
        some converted ∧
      converted.length = ([buildFinal 1 []] : List (List Nat)).length ∧
      argminLen converted = some m ∧
      m < converted.length ∧
      (∀ j, j < converted.length →
        (converted.getD m []).length ≤ (converted.getD j []).length) ∧
      (∀ j, j < m → (converted.getD m []).length < (converted.getD j []).length) ∧
      pack [buildFinal 1 []] ["a"] "t" 1 [] =
        some (write_stk
          (build_ktdt
            (make_paths "t" (["a"] ++ (List.range (15 - converted.length)).map
              (fun j => ["a"].getD m "" ++ "_pad" ++
                toString (converted.length + 1 + j))))
            (((converted ++ List.replicate (15 - converted.length)
                (converted.getD m [])).headD []).length)
            [])
          (converted ++ List.replicate (15 - converted.length)
            (converted.getD m []))) ∧
      (converted ++ List.replicate (15 - converted.length)
        (converted.getD m [])).length = 15 ∧
      (build_ktdt
          (make_paths "t" (["a"] ++ (List.range (15 - converted.length)).map
            (fun j => ["a"].getD m "" ++ "_pad" ++
              toString (converted.length + 1 + j))))
          (((converted ++ List.replicate (15 - converted.length)
              (converted.getD m [])).headD []).length)
          []).length = KTDT_SIZE ∧
      (∀ i, converted.length ≤ i → i < 15 →
        (converted ++ List.replicate (15 - converted.length)
          (converted.getD m [])).getD i [] = converted.getD m []) :=
  C3_pad_to_15 [buildFinal 1 []] ["a"] "t" 1 [] (by decide) (by decide) rfl
    (fun a ha => by
      rw [List.mem_singleton] at ha
      subst ha
      rw [to_pcm16_48k_buildFinal_self 1 [] (Or.inl rfl) (by norm_num) (by norm_num)]
      rfl)

/-- C2: in every container `_write_stk` produces, each non-first payload `i`
is immediately preceded by a 16-byte block header whose size field is the
payload length plus 18 and whose index field is `i`; the first payload sits
bare at `0x10A4` with no stream header, its header living in the table
region at `0x10A4 - 16` with index 0 and size `len + 18`. -/
theorem C2_block_headers (paths : List (List Nat)) (params : List SampleParams)
    (wavs : List (List Nat)) (out : List Nat)
    (hw15 : wavs.length = 15)
    (hsz : ∀ w ∈ wavs, w.length + 18 < 2 ^ 32)
    (hout : out = write_stk (build_ktdt paths ((wavs.headD []).length) params) wavs) :
    ((out.drop 4244).take 16 =
      ISDT_TAG ++ u32le ((wavs.getD 0 []).length + 18) ++ u32le 0 ++ [1, 0, 0, 0]) ∧
    rd32 (out.drop (4244 + 4)) = (wavs.getD 0 []).length + 18 ∧
    rd32 (out.drop (4244 + 8)) = 0 ∧
    (out.drop 0x10A4).take (wavs.getD 0 []).length = wavs.getD 0 [] ∧
    (∀ i, 1 ≤ i → i < 15 →
      ∃ hdr, hdr + 16 = 0x10A4 + payloadOff wavs i ∧
        (out.drop hdr).take 16 =
          ISDT_TAG ++ u32le ((wavs.getD i []).length + 18) ++
            u32le i ++ [1, 0, 0, 0] ∧
        rd32 (out.drop (hdr + 4)) = (wavs.getD i []).length + 18 ∧
        rd32 (out.drop (hdr + 8)) = i ∧
        (out.drop (hdr + 16)).take (wavs.getD i []).length = wavs.getD i []) := by
  subst hout
  cases wavs with
  | nil => simp at hw15
  | cons w0 ws =>
  have hws : ws.length = 14 := by
    simp only [List.length_cons] at hw15
    omega
  have hk := build_ktdt_length paths (((w0 :: ws).headD []).length) params
  have hdropA := write_stk_drop_10A4
    (build_ktdt paths (((w0 :: ws).headD []).length) params) (w0 :: ws) hk
  have hif : (if (w0 :: ws).isEmpty then ([] : List Nat) else [0, 0]) = [0, 0] := rfl
  have hseq0 : payloadSeq 0 (w0 :: ws) = w0 ++ payloadSeq 1 ws := by
    rw [payloadSeq, if_pos rfl]
  rw [hif, hseq0] at hdropA
  have hdropA' : (write_stk (build_ktdt paths (((w0 :: ws).headD []).length) params)
      (w0 :: ws)).drop 0x10A4 = w0 ++ (payloadSeq 1 ws ++ [0, 0]) := by
    rw [hdropA]
    simp
  have hA := write_stk_drop_4244 paths (((w0 :: ws).headD []).length) params (w0 :: ws)
  rw [hif] at hA
  obtain ⟨ha16, ha4, ha8, _⟩ := drop_block_reads _ 4244
    (((w0 :: ws).headD []).length + 18) 0 _ (hsz w0 (by simp)) (by norm_num) hA
  refine ⟨ha16, ha4, ha8, ?_, ?_⟩
  · rw [hdropA']
    exact List.take_left w0 _
  · intro i hi1 hi2
    obtain ⟨k, rfl⟩ : ∃ k, i = k + 1 := ⟨i - 1, by omega⟩
    have hkws : k < ws.length := by omega
    have hlen1 := payloadSeq_length_ge1 ws 1 (by omega)
    have hsoff := streamOff_le ws k
    have hd1 : (write_stk (build_ktdt paths (((w0 :: ws).headD []).length) params)
        (w0 :: ws)).drop (0x10A4 + w0.length) = payloadSeq 1 ws ++ [0, 0] := by
      rw [← List.drop_drop, hdropA']
      exact List.drop_left w0 _
    have hd2 : (write_stk (build_ktdt paths (((w0 :: ws).headD []).length) params)
        (w0 :: ws)).drop (0x10A4 + w0.length + streamOff ws k) =
        (payloadSeq 1 ws).drop (streamOff ws k) ++ [0, 0] := by
      rw [← List.drop_drop, hd1]
      exact List.drop_append_of_le_length (by rw [hlen1]; exact hsoff)
    rw [payloadSeq_drop_block ws 1 k (by omega) hkws, Nat.add_comm 1 k] at hd2
    have hd3 : (write_stk (build_ktdt paths (((w0 :: ws).headD []).length) params)
        (w0 :: ws)).drop (0x10A4 + w0.length + streamOff ws k + 2) =
        ISDT_TAG ++ u32le ((ws.getD k []).length + 18) ++ u32le (k + 1) ++
          [1, 0, 0, 0] ++
          ((ws.getD k []) ++ (payloadSeq (k + 1 + 1) (ws.drop (k + 1)) ++ [0, 0])) := by
      rw [← List.drop_drop, hd2]
      rw [show (isdtBlock (k + 1) ((ws.getD k []).length) ++
          ((ws.getD k []) ++ payloadSeq (k + 1 + 1) (ws.drop (k + 1)))) ++ [0, 0] =
        [0, 0] ++ (ISDT_TAG ++ u32le ((ws.getD k []).length + 18) ++ u32le (k + 1) ++
          [1, 0, 0, 0] ++
          ((ws.getD k []) ++ (payloadSeq (k + 1 + 1) (ws.drop (k + 1)) ++ [0, 0])))
        from by simp [isdtBlock, List.append_assoc]]
      exact List.drop_left' rfl
    obtain ⟨hb16, hb4, hb8, hb16d⟩ := drop_block_reads _ _
      ((ws.getD k []).length + 18) (k + 1) _
      (hsz (ws.getD k []) (List.mem_cons_of_mem w0 (getD_mem hkws)))
      (by omega) hd3
    refine ⟨0x10A4 + w0.length + streamOff ws k + 2, ?_, ?_, ?_, ?_, ?_⟩
    · have hoff : payloadOff (w0 :: ws) (k + 1) =
          w0.length + (((ws.take k).map List.length).sum + 18 * (k + 1)) := by
        unfold payloadOff
        rw [List.take_succ_cons, List.map_cons, List.sum_cons]
        omega
      have hso : streamOff ws k = 18 * k + ((ws.take k).map List.length).sum := by
        unfold streamOff
        rw [sum_map_add18, List.length_take]
        have hmin : min k ws.length = k := by omega
        rw [hmin]
      omega
    · simp only [List.getD_cons_succ]
      exact hb16
    · simp only [List.getD_cons_succ]
      exact hb4
    · exact hb8
    · simp only [List.getD_cons_succ]
      rw [hb16d]
      exact List.take_left (ws.getD k []) _

/-- C2 witness on fifteen small concrete payloads. -/
theorem C2_block_headers_witness :
    (((write_stk (build_ktdt [] ((c2Wavs.headD []).length) []) c2Wavs).drop 4244).take 16 =
      ISDT_TAG ++ u32le ((c2Wavs.getD 0 []).length + 18) ++ u32le 0 ++ [1, 0, 0, 0]) ∧
    rd32 ((write_stk (build_ktdt [] ((c2Wavs.headD []).length) []) c2Wavs).drop
      (4244 + 4)) = (c2Wavs.getD 0 []).length + 18 ∧
    rd32 ((write_stk (build_ktdt [] ((c2Wavs.headD []).length) []) c2Wavs).drop
      (4244 + 8)) = 0 ∧
    ((write_stk (build_ktdt [] ((c2Wavs.headD []).length) []) c2Wavs).drop
      0x10A4).take (c2Wavs.getD 0 []).length = c2Wavs.getD 0 [] ∧
    (∀ i, 1 ≤ i → i < 15 →
      ∃ hdr, hdr + 16 = 0x10A4 + payloadOff c2Wavs i ∧
        ((write_stk (build_ktdt [] ((c2Wavs.headD []).length) []) c2Wavs).drop
          hdr).take 16 =
          ISDT_TAG ++ u32le ((c2Wavs.getD i []).length + 18) ++
            u32le i ++ [1, 0, 0, 0] ∧
        rd32 ((write_stk (build_ktdt [] ((c2Wavs.headD []).length) []) c2Wavs).drop
          (hdr + 4)) = (c2Wavs.getD i []).length + 18 ∧
        rd32 ((write_stk (build_ktdt [] ((c2Wavs.headD []).length) []) c2Wavs).drop
          (hdr + 8)) = i ∧
        ((write_stk (build_ktdt [] ((c2Wavs.headD []).length) []) c2Wavs).drop
          (hdr + 16)).take (c2Wavs.getD i []).length = c2Wavs.getD i []) :=
  C2_block_headers [] [] c2Wavs
    (write_stk (build_ktdt [] ((c2Wavs.headD []).length) []) c2Wavs)
    (by decide) (by decide) rfl

/-- C1 (amended): packing 1–15 convertible assets (any names, any title)
whose normalized forms stay under `2^24 - 18` bytes and re-extracting the
container yields exactly 15 standalone buffers, each of which parses as PCM
audio at 48000 Hz with 16-bit (2-byte) samples.  The size bound keeps the
top byte of every stream block's size field zero, so no byte window inside a
block header can spell the `RIFF` signature; without it the round trip
genuinely fails (see the counterexample below). -/
theorem C1_roundtrip (assets : List (List Nat)) (names : List String) (title : String)
    (tc : Nat) (params : List SampleParams)
    (htc : tc = 1 ∨ tc = 2)
    (hk1 : 1 ≤ assets.length) (hk15 : assets.length ≤ 15)
    (hok : ∀ a ∈ assets, ∃ w, to_pcm16_48k a tc = some w ∧ w.length + 18 < 2 ^ 24) :
    ∃ out bufs,
      pack assets names title tc params = some out ∧
      extract_wavs out = (bufs, false) ∧
      bufs.length = 15 ∧
      ∀ b ∈ bufs, ∃ info, wave_read b = some info ∧
        info.rate = 48000 ∧ info.sw = 2 := by
  have hsome : ∀ a ∈ assets, (to_pcm16_48k a tc).isSome := by
    intro a ha
    obtain ⟨w, hw, _⟩ := hok a ha
    rw [hw]
    rfl
  obtain ⟨converted, hmap, hclen, hmem⟩ := mapM_option_sound _ assets hsome
  have hconv : ∀ w ∈ converted, ∃ audio, w = buildFinal tc audio ∧
      110 + audio.length < 2 ^ 32 ∧ w.length + 18 < 2 ^ 24 := by
    intro w hw
    obtain ⟨a, ha, hfa⟩ := hmem w hw
    obtain ⟨w2, hw2, hszw⟩ := hok a ha
    rw [hfa] at hw2
    have hww : w = w2 := Option.some.inj hw2
    subst hww
    obtain ⟨audio, hbf, hb32, _⟩ := to_pcm16_48k_spec hfa
    exact ⟨audio, hbf, hb32, hszw⟩
  obtain ⟨wavs, nms2, hpick, hw15, hsub⟩ :=
    pick_samples_pad_wavs converted (names.take 15) (by omega) (by omega)
  have hout := pack_eq assets names title tc params converted (wavs, nms2)
    (by omega) hmap hpick
  dsimp only at hout
  have hGP : ∀ w ∈ wavs, GoodPayload w := by
    intro w hw
    obtain ⟨audio, rfl, hb32, hsz24⟩ := hconv w (hsub w hw)
    exact GoodPayload_buildFinal tc audio hsz24
  cases wavs with
  | nil => exact absurd hw15 (by decide)
  | cons w0 ws =>
  have hws : ws.length = 14 := by
    simp only [List.length_cons] at hw15
    omega
  refine ⟨_, w0 :: ws, hout, ?_, hw15, ?_⟩
  · unfold extract_wavs
    have hdropA := write_stk_drop_10A4
      (build_ktdt (make_paths title nms2) (((w0 :: ws).headD []).length) params)
      (w0 :: ws) (build_ktdt_length _ _ _)
    have hif : (if (w0 :: ws).isEmpty then ([] : List Nat) else [0, 0]) = [0, 0] := rfl
    have hseq0 : payloadSeq 0 (w0 :: ws) = w0 ++ payloadSeq 1 ws := by
      rw [payloadSeq, if_pos rfl]
    rw [hif, hseq0] at hdropA
    have haudio : (write_stk
        (build_ktdt (make_paths title nms2) (((w0 :: ws).headD []).length) params)
        (w0 :: ws)).drop 0x10A4 = w0 ++ (payloadSeq 1 ws ++ [0, 0]) := by
      rw [hdropA]
      simp
    exact scanGo_full w0 ws _ haudio (hGP w0 (by simp))
      (fun w hw => hGP w (by simp [hw])) hws
  · intro b hb
    obtain ⟨audio, rfl, hb32, _⟩ := hconv b (hsub b hb)
    exact ⟨⟨tc, 2, 48000, audio.length, audio.take (audio.length / (tc * 2) * (tc * 2))⟩,
      wave_read_buildFinal tc audio htc hb32, rfl, rfl⟩

/-- C1 witness: one canonical asset packs and re-extracts into 15
parseable 48 kHz / 16-bit buffers. -/
theorem C1_roundtrip_witness :
    ∃ out bufs,
      pack [buildFinal 1 [1, 0, 2, 0]] [] "t" 1 [] = some out ∧
      extract_wavs out = (bufs, false) ∧
      bufs.length = 15 ∧
      ∀ b ∈ bufs, ∃ info, wave_read b = some info ∧
        info.rate = 48000 ∧ info.sw = 2 :=
  C1_roundtrip [buildFinal 1 [1, 0, 2, 0]] [] "t" 1 [] (Or.inl rfl)
    (by decide) (by decide)
    (fun a ha => by
      rw [List.mem_singleton] at ha
      subst ha
      exact ⟨buildFinal 1 [1, 0, 2, 0],
        to_pcm16_48k_buildFinal_self 1 [1, 0, 2, 0] (Or.inl rfl) (by norm_num)
          (by norm_num),
        by rw [buildFinal_length]; norm_num⟩)

/-- C1 counterexample: with no bound on asset size the round trip fails.
Packing a 118-byte container together with a valid PCM container whose
normalized length makes its stream block's size field read `0x46464952`
(the bytes `RIFF`) succeeds, but extraction matches the spurious signature
inside the block header, emits a 9-byte junk file that no WAV parser
accepts, and the 15-file cap then drops the final real payload — so not
every extracted buffer is parseable PCM. -/
theorem C1_counterexample :
    ∃ out bufs,
      pack [buildFinal 1 [], hugeAsset] ["a", "b"] "t" 1 [] = some out ∧
      extract_wavs out = (bufs, false) ∧
      bufs.length = 15 ∧
      junkBuf ∈ bufs ∧
      wave_read junkBuf = none := by
  have hbf0 : to_pcm16_48k (buildFinal 1 []) 1 = some (buildFinal 1 []) :=
    to_pcm16_48k_buildFinal_self 1 [] (Or.inl rfl) (by norm_num) (by norm_num)
  have hhl : hugeAudio.length = hugeN := by
    simp [hugeAudio]
  have hhuge : to_pcm16_48k hugeAsset 1 = some hugeAsset := by
    refine to_pcm16_48k_buildFinal_self 1 hugeAudio (Or.inl rfl) ?_ ?_
    · rw [hhl]
      norm_num [hugeN]
    · rw [hhl]
      norm_num [hugeN]
  have hlhuge : hugeAsset.length = 118 + hugeN := by
    rw [show hugeAsset = buildFinal 1 hugeAudio from rfl, buildFinal_length, hhl]
  have hlbf0 : (buildFinal 1 ([] : List Nat)).length = 118 := by
    rw [buildFinal_length]
    rfl
  have hmap1 : ([hugeAsset] : List (List Nat)).mapM (fun a => to_pcm16_48k a 1) =
      some [hugeAsset] := by
    rw [List.mapM_cons]
    show (to_pcm16_48k hugeAsset 1).bind (fun b2 =>
      (([] : List (List Nat)).mapM (fun a => to_pcm16_48k a 1)).bind
        (fun r2 => some (b2 :: r2))) = _
    rw [hhuge, Option.some_bind]
    rfl
  have hmap : ([buildFinal 1 [], hugeAsset] : List (List Nat)).mapM
      (fun a => to_pcm16_48k a 1) = some [buildFinal 1 [], hugeAsset] := by
    rw [List.mapM_cons]
    show (to_pcm16_48k (buildFinal 1 []) 1).bind (fun b2 =>
      (([hugeAsset] : List (List Nat)).mapM (fun a => to_pcm16_48k a 1)).bind
        (fun r2 => some (b2 :: r2))) = _
    rw [hbf0, Option.some_bind, hmap1, Option.some_bind]
  obtain ⟨m, hm, hmlt, hpick, hmin, _⟩ :=
    pick_samples_pad_spec [buildFinal 1 [], hugeAsset] ["a", "b"]
      (by simp) (by simp) (by simp)
  have hm2 : m < 2 := by
    simpa using hmlt
  have hm0 : m = 0 := by
    interval_cases m
    · rfl
    · exfalso
      have h0 := hmin 0 (by simp)
      simp only [List.getD_cons_zero, List.getD_cons_succ] at h0
      rw [hlhuge, hlbf0] at h0
      norm_num [hugeN] at h0
  subst hm0
  have hpick2 : pick_samples_pad [buildFinal 1 [], hugeAsset]
      ((["a", "b"] : List String).take 15) =
      some (buildFinal 1 [] :: hugeAsset :: List.replicate 13 (buildFinal 1 []),
        ["a", "b"] ++ (List.range 13).map
          (fun j => "a" ++ "_pad" ++ toString (2 + 1 + j))) := by
    rw [show ((["a", "b"] : List String).take 15) = ["a", "b"] from rfl, hpick]
    rfl
  have hout := pack_eq [buildFinal 1 [], hugeAsset] ["a", "b"] "t" 1 []
    [buildFinal 1 [], hugeAsset]
    (buildFinal 1 [] :: hugeAsset :: List.replicate 13 (buildFinal 1 []),
      ["a", "b"] ++ (List.range 13).map
        (fun j => "a" ++ "_pad" ++ toString (2 + 1 + j)))
    (by simp) hmap hpick2
  dsimp only at hout
  have hgp0 : GoodPayload (buildFinal 1 []) :=
    GoodPayload_buildFinal 1 [] (by rw [buildFinal_length]; norm_num)
  have hpoison : u32le (hugeAsset.length + 18) = riffTag := by
    rw [hlhuge, show 118 + hugeN + 18 = 0x46464952 from by norm_num [hugeN]]
    decide
  have hszfacts := buildFinal_size_field 1 hugeAudio (by rw [hhl]; norm_num [hugeN])
  have h8h : 8 ≤ hugeAsset.length := by
    rw [hlhuge]
    omega
  have hgps : ∀ w ∈ List.replicate 13 (buildFinal 1 []), GoodPayload w := by
    intro w hw
    rw [List.eq_of_mem_replicate hw]
    exact hgp0
  have hextract : ∀ ktdt : List Nat, ktdt.length = KTDT_SIZE →
      extract_wavs (write_stk ktdt
        (buildFinal 1 [] :: hugeAsset :: List.replicate 13 (buildFinal 1 []))) =
        (buildFinal 1 [] :: junkBuf :: hugeAsset ::
          List.replicate 12 (buildFinal 1 []), false) := by
    intro ktdt hk
    have hdropA := write_stk_drop_10A4 ktdt
      (buildFinal 1 [] :: hugeAsset :: List.replicate 13 (buildFinal 1 [])) hk
    have hif : (if (buildFinal 1 [] :: hugeAsset ::
        List.replicate 13 (buildFinal 1 [])).isEmpty then ([] : List Nat)
        else [0, 0]) = [0, 0] := rfl
    have hseq : payloadSeq 0 (buildFinal 1 [] :: hugeAsset ::
        List.replicate 13 (buildFinal 1 [])) =
        buildFinal 1 [] ++ ((isdtBlock 1 hugeAsset.length ++ hugeAsset) ++
          payloadSeq 2 (List.replicate 13 (buildFinal 1 []))) := by
      rw [payloadSeq, if_pos rfl, payloadSeq, if_neg (by omega)]
    rw [hif, hseq] at hdropA
    have haudio : (write_stk ktdt (buildFinal 1 [] :: hugeAsset ::
        List.replicate 13 (buildFinal 1 []))).drop 0x10A4 =
        buildFinal 1 [] ++ (isdtBlock 1 hugeAsset.length ++
          (hugeAsset ++ (payloadSeq 2 (List.replicate 13 (buildFinal 1 [])) ++
            [0, 0]))) := by
      rw [hdropA]
      simp [List.append_assoc]
    unfold extract_wavs
    rw [extract_poisoned_trace _ (buildFinal 1 []) hugeAsset
      (List.replicate 13 (buildFinal 1 [])) haudio hgp0 hpoison
      hszfacts.1 h8h hszfacts.2 hgps (by simp)]
    rw [List.take_replicate, show min 12 13 = 12 from rfl]
  refine ⟨_, buildFinal 1 [] :: junkBuf :: hugeAsset ::
      List.replicate 12 (buildFinal 1 []),
    hout, hextract _ (build_ktdt_length _ _ _), ?_, ?_, ?_⟩
  · simp
  · exact List.mem_cons_of_mem _ (List.mem_cons_self _ _)
  · rfl

end StkWriter
